import Mathlib

/-!
Verification development for the JSON-recovery pipeline of
`src/____selectors.py`.

The Python module extracts a JSON document from noisy AI-generated text.
This file gives a shallow embedding of its pure core:

* `is_valid_json`            (source lines 9-62)
* `verify_json_integrity`    (source lines 65-116, Python `_verify_json_integrity`)
* `sanitize_json_string_values` with `clean_value` / `clean_recursive`
                             (source lines 119-178, Python `_sanitize_json_string_values`)
* `extract_clean_json`       (source lines 181-290)

Python JSON values are modelled by the mutual inductive `J`/`JArr`/`JObj`
(objects keep key insertion order, as Python dicts do).  `json.loads` is
modelled by `jparse` and `json.dumps` (default arguments: separators
", " and ": ", ensure_ascii=True) by `jdumps`.

Documented modelling boundaries (all outside the behaviour the claims
exercise):
* numeric literals are modelled as integers; float literals (`1.5`, `1e3`,
  `NaN`, `Infinity`) are outside the model, `jparse` fails on them;
* duplicate object keys are kept in order instead of collapsed to the
  last occurrence;
* lone-surrogate `\uXXXX` escapes (which CPython's json accepts) are
  rejected, since a Lean `Char` is a unicode scalar value;
* `str.lower`, `\s`, `\w` and regex character classes are read at their
  ASCII meaning.

Leading underscores of Python names are dropped where Lean's syntax makes
them awkward; everything else keeps the source's names.
-/

set_option maxRecDepth 20000
set_option maxHeartbeats 1000000

mutual
/-- Python JSON value: `None`, `bool`, `int`, `str`, `list`, `dict`
(insertion-ordered association list). -/
inductive J where
  | null : J
  | bool : Bool → J
  | num : Int → J
  | str : String → J
  | arr : JArr → J
  | obj : JObj → J
  deriving DecidableEq
/-- Spine of a Python `list` of JSON values. -/
inductive JArr where
  | nil : JArr
  | cons : J → JArr → JArr
  deriving DecidableEq
/-- Spine of a Python `dict` with string keys, in insertion order. -/
inductive JObj where
  | nil : JObj
  | cons : String → J → JObj → JObj
  deriving DecidableEq
end

/-! ### Character helpers -/

/-- The four whitespace characters skipped by Python's json scanner. -/
def isJsonWs (c : Char) : Bool :=
  c = ' ' || c = '\t' || c = '\n' || c = '\r'

/-- Whitespace stripped by Python's `str.strip()` (ASCII part). -/
def isPyWs (c : Char) : Bool :=
  c = ' ' || c = '\t' || c = '\n' || c = '\r' || c.toNat = 11 || c.toNat = 12

def skipWs (cs : List Char) : List Char := cs.dropWhile isJsonWs

/-- ASCII decimal digit for 0..9 (used by the integer serializer). -/
def digCh (d : Nat) : Char :=
  match d with
  | 0 => '0' | 1 => '1' | 2 => '2' | 3 => '3' | 4 => '4'
  | 5 => '5' | 6 => '6' | 7 => '7' | 8 => '8' | _ => '9'

/-- Lowercase hex digit for 0..15 (CPython emits lowercase in `\uXXXX`). -/
def hexCh (d : Nat) : Char :=
  match d with
  | 0 => '0' | 1 => '1' | 2 => '2' | 3 => '3' | 4 => '4'
  | 5 => '5' | 6 => '6' | 7 => '7' | 8 => '8' | 9 => '9'
  | 10 => 'a' | 11 => 'b' | 12 => 'c' | 13 => 'd' | 14 => 'e' | _ => 'f'

/-- Four lowercase hex digits, most significant first. -/
def hex4 (n : Nat) : List Char :=
  [hexCh (n / 4096 % 16), hexCh (n / 256 % 16), hexCh (n / 16 % 16), hexCh (n % 16)]

/-- Decimal digits of a natural number, fuelled so that the kernel can
evaluate it (the fuel exceeds the number of digits). -/
def natCharsGo : Nat → Nat → List Char
  | 0, _ => []
  | f + 1, n =>
    if n < 10 then [digCh n]
    else natCharsGo f (n / 10) ++ [digCh (n % 10)]

/-- Decimal digits of a natural number, as emitted by Python's `str(int)`. -/
def natChars (n : Nat) : List Char := natCharsGo (n + 1) n

/-- Digits of a Python `int`, sign included. -/
def intChars : Int → List Char
  | .ofNat m => natChars m
  | .negSucc m => '-' :: natChars (m + 1)

/-- Escaping of one string character, as CPython's json encoder does with
`ensure_ascii=True`: `"` and `\` and the named control characters get
two-character escapes, other controls and all non-ASCII get `\uXXXX`
(a surrogate pair above U+FFFF); printable ASCII is emitted as is. -/
def escChar (c : Char) : List Char :=
  if c = '"' then ['\\', '"']
  else if c = '\\' then ['\\', '\\']
  else if c = '\n' then ['\\', 'n']
  else if c = '\t' then ['\\', 't']
  else if c = '\r' then ['\\', 'r']
  else if c.toNat = 8 then ['\\', 'b']
  else if c.toNat = 12 then ['\\', 'f']
  else if c.toNat < 32 then '\\' :: 'u' :: hex4 c.toNat
  else if c.toNat ≤ 126 then [c]
  else if c.toNat ≤ 65535 then '\\' :: 'u' :: hex4 c.toNat
  else
    '\\' :: 'u' :: hex4 (55296 + (c.toNat - 65536) / 1024) ++
      ('\\' :: 'u' :: hex4 (56320 + (c.toNat - 65536) % 1024))

/-- Serialized (quoted and escaped) JSON string literal. -/
def dq (s : String) : List Char :=
  '"' :: s.data.flatMap escChar ++ ['"']

/-! ### `json.dumps` (default arguments) -/

mutual
/-- Model of `json.dumps(v)` with the default separators `", "`/`": "`,
producing a character list. -/
def dumpJ : J → List Char
  | .null => "null".data
  | .bool true => "true".data
  | .bool false => "false".data
  | .num n => intChars n
  | .str s => dq s
  | .arr .nil => ['[', ']']
  | .arr (.cons x tl) => '[' :: (dumpElems (.cons x tl)) ++ [']']
  | .obj .nil => ['{', '}']
  | .obj (.cons k v tl) => '{' :: (dumpFields (.cons k v tl)) ++ ['}']

/-- Array elements joined by `", "`. -/
def dumpElems : JArr → List Char
  | .nil => []
  | .cons x .nil => dumpJ x
  | .cons x (.cons y tl) => dumpJ x ++ ',' :: ' ' :: dumpElems (.cons y tl)

/-- Object entries `"key": value` joined by `", "`. -/
def dumpFields : JObj → List Char
  | .nil => []
  | .cons k v .nil => dq k ++ ':' :: ' ' :: dumpJ v
  | .cons k v (.cons k2 v2 tl) =>
      dq k ++ ':' :: ' ' :: dumpJ v ++ ',' :: ' ' :: dumpFields (.cons k2 v2 tl)
end

/-- `json.dumps` as a `String`. -/
def jdumps (v : J) : String := String.mk (dumpJ v)




/-! ### `json.loads` -/

/-- Value of an ASCII hex digit, either case (CPython uses `int(s, 16)`). -/
def hexVal (c : Char) : Option Nat :=
  if 48 ≤ c.toNat ∧ c.toNat ≤ 57 then some (c.toNat - 48)
  else if 97 ≤ c.toNat ∧ c.toNat ≤ 102 then some (c.toNat - 87)
  else if 65 ≤ c.toNat ∧ c.toNat ≤ 70 then some (c.toNat - 55)
  else none

/-- Read exactly four hex digits. -/
def readHex4 : List Char → Option (Nat × List Char)
  | a :: b :: c :: d :: rest =>
    match hexVal a, hexVal b, hexVal c, hexVal d with
    | some va, some vb, some vc, some vd =>
        some (va * 4096 + vb * 256 + vc * 16 + vd, rest)
    | _, _, _, _ => none
  | _ => none

/-- Unicode scalar from a code point; `none` on a surrogate (a Lean `Char`
cannot hold the lone surrogates CPython's json tolerates). -/
def mkChar (n : Nat) : Option Char :=
  if n < 55296 ∨ (57343 < n ∧ n < 1114112) then some (Char.ofNat n) else none

/-- Decoding of a `\uXXXX` escape after the `\u`: four hex digits, with
surrogate-pair recombination when a high surrogate is followed by another
`\uXXXX` holding a low surrogate. -/
def decodeU (cs : List Char) : Option (Char × List Char) :=
  match readHex4 cs with
  | none => none
  | some (hi, r1) =>
    if 55296 ≤ hi ∧ hi ≤ 56319 then
      match r1 with
      | '\\' :: 'u' :: r2 =>
        (match readHex4 r2 with
         | none => none
         | some (lo, r3) =>
           if 56320 ≤ lo ∧ lo ≤ 57343 then
             match mkChar (65536 + (hi - 55296) * 1024 + (lo - 56320)) with
             | none => none
             | some c2 => some (c2, r3)
           else none)
      | _ => none
    else
      match mkChar hi with
      | none => none
      | some c2 => some (c2, r1)

/-- Decoding of one escape sequence after the backslash: the eight short
escapes and `\uXXXX` via `decodeU`. -/
def decodeEsc : List Char → Option (Char × List Char)
  | [] => none
  | e :: rest2 =>
    match e with
    | '"' => some ('"', rest2)
    | '\\' => some ('\\', rest2)
    | '/' => some ('/', rest2)
    | 'b' => some (Char.ofNat 8, rest2)
    | 'f' => some (Char.ofNat 12, rest2)
    | 'n' => some ('\n', rest2)
    | 'r' => some ('\r', rest2)
    | 't' => some ('\t', rest2)
    | 'u' => decodeU rest2
    | _ => none

/-- Body of a JSON string literal after the opening quote, fuelled (one
fuel unit per decoded character, so the wrapper's fuel is always enough):
plain characters (controls below U+0020 are rejected, as CPython's strict
mode does) and backslash escapes via `decodeEsc`. -/
def parseStrGo : Nat → List Char → Option (List Char × List Char)
  | 0, _ => none
  | _ + 1, [] => none
  | f + 1, c :: rest =>
    if c = '"' then some ([], rest)
    else if c = '\\' then
      match decodeEsc rest with
      | none => none
      | some (c2, rest2) => (parseStrGo f rest2).map fun p => (c2 :: p.1, p.2)
    else if 32 ≤ c.toNat then (parseStrGo f rest).map fun p => (c :: p.1, p.2)
    else none

/-- Body of a JSON string literal after the opening quote. -/
def parseStrBody (cs : List Char) : Option (List Char × List Char) :=
  parseStrGo (cs.length + 1) cs

/-- Digit run of a JSON integer literal: all leading digits, rejecting an
empty run and a redundant leading zero (JSON grammar `0 | [1-9][0-9]*`). -/
def parseNatToken (cs : List Char) : Option (Nat × List Char) :=
  let ds := cs.takeWhile Char.isDigit
  match ds with
  | [] => none
  | d :: dtl =>
    if d = '0' ∧ dtl ≠ [] then none
    else some (ds.foldl (fun a c => 10 * a + (c.toNat - 48)) 0, cs.drop ds.length)

/-- JSON integer literal with optional minus sign.  Float syntax is outside
the model: a following `.`/`e` is left unconsumed and makes the enclosing
parse fail, where CPython would build a float. -/
def parseIntToken : List Char → Option (Int × List Char)
  | [] => none
  | c :: rest =>
    if c = '-' then (parseNatToken rest).map fun p => (-(p.1 : Int), p.2)
    else (parseNatToken (c :: rest)).map fun p => ((p.1 : Int), p.2)

/-- Leaf values of the json grammar (strings, `true`/`false`/`null`,
integer literals); no recursion. -/
def parseLeaf : List Char → Option (J × List Char)
  | [] => none
  | c :: r =>
    if c = '"' then (parseStrBody r).map fun p => (J.str (String.mk p.1), p.2)
    else if c = 't' then
      match r with
      | 'r' :: 'u' :: 'e' :: r2 => some (J.bool true, r2)
      | _ => none
    else if c = 'f' then
      match r with
      | 'a' :: 'l' :: 's' :: 'e' :: r2 => some (J.bool false, r2)
      | _ => none
    else if c = 'n' then
      match r with
      | 'u' :: 'l' :: 'l' :: r2 => some (J.null, r2)
      | _ => none
    else if c = '-' ∨ c.isDigit then
      (parseIntToken (c :: r)).map fun p => (J.num p.1, p.2)
    else none

/-- Key of an object entry followed by whitespace and `:`, returning the
key and the input after the colon with whitespace skipped; no recursion. -/
def parseKeyColon : List Char → Option (List Char × List Char)
  | [] => none
  | c :: r =>
    if c = '"' then
      match parseStrBody r with
      | none => none
      | some (k, r1) =>
        match skipWs r1 with
        | [] => none
        | c2 :: r2 => if c2 = ':' then some (k, skipWs r2) else none
    else none

mutual
/-- Recursive-descent model of CPython's json scanner, structural on fuel;
each nesting level consumes at least one input character, so the fuel
supplied by `jparse` never runs out. -/
def parseV : Nat → List Char → Option (J × List Char)
  | 0, _ => none
  | f + 1, cs =>
    match cs with
    | [] => none
    | c :: r =>
      if c = '{' then
        match skipWs r with
        | [] => none
        | c2 :: r2 =>
          if c2 = '}' then some (J.obj .nil, r2)
          else (parseFields f (c2 :: r2)).map fun p => (J.obj p.1, p.2)
      else if c = '[' then
        match skipWs r with
        | [] => none
        | c2 :: r2 =>
          if c2 = ']' then some (J.arr .nil, r2)
          else (parseElems f (c2 :: r2)).map fun p => (J.arr p.1, p.2)
      else parseLeaf (c :: r)

/-- One or more comma-separated array elements followed by `]`. -/
def parseElems : Nat → List Char → Option (JArr × List Char)
  | 0, _ => none
  | f + 1, cs =>
    match parseV f cs with
    | none => none
    | some (v, r1) =>
      match skipWs r1 with
      | [] => none
      | c2 :: r2 =>
        if c2 = ',' then (parseElems f (skipWs r2)).map fun p => (JArr.cons v p.1, p.2)
        else if c2 = ']' then some (JArr.cons v .nil, r2)
        else none

/-- One or more comma-separated `"key": value` entries followed by `}`. -/
def parseFields : Nat → List Char → Option (JObj × List Char)
  | 0, _ => none
  | f + 1, cs =>
    match parseKeyColon cs with
    | none => none
    | some (k, r2) =>
      match parseV f r2 with
      | none => none
      | some (v, r3) =>
        match skipWs r3 with
        | [] => none
        | c3 :: r4 =>
          if c3 = ',' then
            (parseFields f (skipWs r4)).map fun p => (JObj.cons (String.mk k) v p.1, p.2)
          else if c3 = '}' then some (JObj.cons (String.mk k) v .nil, r4)
          else none
end

/-- Model of `json.loads`: skip surrounding whitespace, parse one value,
require the input to be exhausted.  `none` models a raised
`json.JSONDecodeError`. -/
def jparse (s : String) : Option J :=
  let cs := skipWs s.data
  match parseV (2 * cs.length + 4) cs with
  | some (v, rest) => if skipWs rest = [] then some v else none
  | none => none




/-! ### Regex-based text cleanup (source lines 136-164 and 197-210)

Each `re.sub(pattern, '', text)` call is modelled as a fuelled left-to-right
scanner: at each position the fixed pattern is tried (leftmost match);
on a match the matched characters are dropped and scanning resumes right
after the match, exactly as `re.sub` does with non-overlapping matches. -/

/-- Python `str.lower` (ASCII). -/
def lowerChars (cs : List Char) : List Char := cs.map Char.toLower

/-- Case-insensitive comparison of a text fragment with a pattern given in
lowercase. -/
def lowerEq (cs pat : List Char) : Bool := lowerChars cs = pat

/-- Word character for the regex `\b` boundary: `[a-zA-Z0-9_]`. -/
def isWordChar (c : Char) : Bool := c.isAlphanum || c = '_'

/-- Regex `\s` (ASCII): space, tab, newline, carriage return, vertical tab,
form feed. -/
def isReWs (c : Char) : Bool :=
  c = ' ' || c = '\t' || c = '\n' || c = '\r' || c.toNat = 11 || c.toNat = 12

/-- The boilerplate phrase of `re.sub(r'use code with caution\.?', ...)`. -/
def cautionPat : List Char := "use code with caution".data

/-- Drop one optional period, for the `\.?` tail of the boilerplate regex. -/
def dropDot : List Char → List Char
  | '.' :: r => r
  | r => r

/-- Scanner for `re.sub(r'Use code with caution\.?', '', text, re.IGNORECASE)`
(source lines 144 and 201). -/
def rmCautionGo : Nat → List Char → List Char
  | 0, cs => cs
  | _ + 1, [] => []
  | f + 1, c :: rest =>
    if lowerEq ((c :: rest).take 21) cautionPat then
      rmCautionGo f (dropDot ((c :: rest).drop 21))
    else c :: rmCautionGo f rest

def rmCaution (cs : List Char) : List Char := rmCautionGo (cs.length + 1) cs

/-- Scanner for `re.sub(r'```json\s*', '', text, re.IGNORECASE)`
(source line 202). -/
def rmFenceJsonGo : Nat → List Char → List Char
  | 0, cs => cs
  | _ + 1, [] => []
  | f + 1, c :: rest =>
    if lowerEq ((c :: rest).take 7) "```json".data then
      rmFenceJsonGo f (((c :: rest).drop 7).dropWhile isReWs)
    else c :: rmFenceJsonGo f rest

def rmFenceJson (cs : List Char) : List Char := rmFenceJsonGo (cs.length + 1) cs

/-- Scanner for `re.sub(r'```\s*', '', text)` (source line 203). -/
def rmFenceGo : Nat → List Char → List Char
  | 0, cs => cs
  | _ + 1, [] => []
  | f + 1, c :: rest =>
    if (c :: rest).take 3 = "```".data then
      rmFenceGo f (((c :: rest).drop 3).dropWhile isReWs)
    else c :: rmFenceGo f rest

def rmFence (cs : List Char) : List Char := rmFenceGo (cs.length + 1) cs

/-- Left `\b` of `\bjson\b`: start of text or a preceding non-word character. -/
def boundaryBefore : Option Char → Bool
  | none => true
  | some p => !isWordChar p

/-- Right `\b` of `\bjson\b`: end of text or a following non-word character. -/
def boundaryAfter : List Char → Bool
  | [] => true
  | a :: _ => !isWordChar a

/-- Lookahead `(?=\s*[{"\[])`: optional whitespace, then `{`, `"` or `[`. -/
def lookaheadOk (cs : List Char) : Bool :=
  match cs.dropWhile isReWs with
  | c :: _ => c = '{' || c = '"' || c = '['
  | [] => false

/-- Scanner for `re.sub(r'\bjson\b(?=\s*[{"\[])', '', text, re.IGNORECASE)`
(source line 205): the lookahead consumes nothing, so only the four
word characters are dropped and scanning resumes after them, with the last
dropped character as the new left context. -/
def rmLabelGo : Nat → Option Char → List Char → List Char
  | 0, _, cs => cs
  | _ + 1, _, [] => []
  | f + 1, prev, c :: rest =>
    if boundaryBefore prev ∧ lowerEq ((c :: rest).take 4) "json".data
        ∧ boundaryAfter ((c :: rest).drop 4) ∧ lookaheadOk ((c :: rest).drop 4) then
      rmLabelGo f (((c :: rest).take 4).getLast?) ((c :: rest).drop 4)
    else c :: rmLabelGo f (some c) rest

def rmLabel (cs : List Char) : List Char := rmLabelGo (cs.length + 1) none cs

/-- Allow-list of `re.sub(r'[^a-zA-Z0-9{}\[\]:,"\'.@\-_ \t]', '', cleaned)`
(source line 210). -/
def allowedChar (c : Char) : Bool :=
  c.isAlphanum || c = '{' || c = '}' || c = '[' || c = ']' || c = ':' || c = ','
    || c = '"' || c = '\'' || c = '.' || c = '@' || c = '-' || c = '_'
    || c = ' ' || c = '\t'

def filterAllowed (cs : List Char) : List Char := cs.filter allowedChar

/-- Python `str.strip()`. -/
def trimChars (cs : List Char) : List Char :=
  ((cs.dropWhile isPyWs).reverse.dropWhile isPyWs).reverse

/-- The noise-removal phase of `extract_clean_json` (source lines 200-210),
applied before the span search. -/
def cleanedOf (t : String) : List Char :=
  filterAllowed (rmLabel (rmFence (rmFenceJson (rmCaution t.data))))


/-! ### `clean_value` and `_sanitize_json_string_values` (source lines 119-178) -/

/-- Domain-shape test `re.compile(r'^[a-z0-9][a-z0-9.-]*[a-z0-9]\.[a-z]{2,}$',
re.IGNORECASE).match(...)`, core case (no trailing newline): the string
splits at its last dot into a head of length at least two made of
alphanumerics, dots and hyphens with alphanumeric endpoints, and an
all-alphabetic tail of length at least two.  Because the tail of the regex
is all-alphabetic up to `$`, the `\.` can only be the last dot, so this
split is exactly regex matching. -/
def domainCore (cs : List Char) : Bool :=
  let revTail := cs.reverse.takeWhile (fun c => c ≠ '.')
  if revTail.length = cs.length then false
  else
    let tail := revTail.reverse
    let head := (cs.reverse.drop (revTail.length + 1)).reverse
    (tail.all Char.isAlpha && decide (2 ≤ tail.length)) &&
      (match head with
       | [] => false
       | h :: htl =>
         htl ≠ [] && h.isAlphanum &&
           (match htl.getLast? with
            | some l => l.isAlphanum
            | none => false) &&
           head.all (fun c => c.isAlphanum || c = '.' || c = '-'))

/-- Full `domain_pattern.match`: the `$` anchor also matches just before one
trailing newline. -/
def domainMatch (cs : List Char) : Bool :=
  domainCore cs ||
    (match cs.getLast? with
     | some c => c = '\n' && domainCore cs.dropLast
     | none => false)


/-- The `for _ in range(2)` loop of `clean_value` (source lines 152-159):
each pass strips a leading `json` when the remainder is domain-shaped,
otherwise a trailing `json` under the same proviso, and the loop breaks
on the first pass that changes nothing. -/
def jsonStripLoop : Nat → List Char → List Char
  | 0, v => v
  | n + 1, v =>
    if lowerEq (v.take 4) "json".data ∧ domainMatch (v.drop 4) then
      jsonStripLoop n (v.drop 4)
    else if lowerEq (v.reverse.take 4) "nosj".data ∧ domainMatch (v.take (v.length - 4)) then
      jsonStripLoop n (v.take (v.length - 4))
    else v

/-- Model of `clean_value` (source lines 136-164): boilerplate removal,
strip, then the two-pass `json`-affix stripping. -/
def clean_value (v : String) : String :=
  String.mk (jsonStripLoop 2 (trimChars (rmCaution v.data)))


mutual
/-- Model of `clean_recursive` (source lines 166-175): descend into dicts
and lists, clean string leaves, pass other scalars through. -/
def cleanJ : J → J
  | .null => .null
  | .bool b => .bool b
  | .num n => .num n
  | .str s => .str (clean_value s)
  | .arr xs => .arr (cleanA xs)
  | .obj fs => .obj (cleanO fs)

/-- `clean_recursive` on a list. -/
def cleanA : JArr → JArr
  | .nil => .nil
  | .cons x tl => .cons (cleanJ x) (cleanA tl)

/-- `clean_recursive` on a dict: keys untouched, values cleaned. -/
def cleanO : JObj → JObj
  | .nil => .nil
  | .cons k v tl => .cons k (cleanJ v) (cleanO tl)
end

/-- Model of `_sanitize_json_string_values` (source lines 119-178): decode,
clean recursively, re-encode; on decode failure return the input unchanged. -/
def sanitize_json_string_values (s : String) : String :=
  match jparse s with
  | none => s
  | some d => jdumps (cleanJ d)

/-! ### `is_valid_json` (source lines 9-62) -/

/-- Substring containment, prefix test at each position (Python `in`). -/
def containsSub (pat : List Char) : List Char → Bool
  | [] => decide (pat = [])
  | c :: rest => pat.isPrefixOf (c :: rest) || containsSub pat rest


/-- Key membership in a Python dict (`'domain' in data`). -/
def objHasKey (k : String) : JObj → Bool
  | .nil => false
  | .cons k2 _ tl => k2 = k || objHasKey k tl

/-- The required-field check of `is_valid_json`: `'domain' in d or
'patterns' in d`. -/
def hasRequired (fs : JObj) : Bool :=
  objHasKey "domain" fs || objHasKey "patterns" fs

/-- Model of `is_valid_json` (source lines 9-62): non-empty, decodable,
free of the placeholder markers in its lowercased text, and with the
required field present for a dict, or for the first element of a non-empty
list when that element is a dict. -/
def is_valid_json (s : String) : Bool :=
  if s = "" then false
  else
    match jparse s with
    | none => false
    | some d =>
      if containsSub "example".data (lowerChars s.data)
          || containsSub "domain.com".data (lowerChars s.data) then false
      else
        match d with
        | .obj fs => hasRequired fs
        | .arr .nil => false
        | .arr (.cons first _) =>
          (match first with
           | .obj fs => hasRequired fs
           | _ => true)
        | _ => true


/-! ### The balance scanner (source lines 65-116 and 224-269) -/

/-- State of the string/escape-aware depth scan: brace and bracket balances,
string mode, and the one-character escape flag. -/
structure ScanSt where
  bb : Int
  kb : Int
  inStr : Bool
  esc : Bool
  deriving DecidableEq

/-- Initial scan state. -/
def scanInit : ScanSt := ⟨0, 0, false, false⟩

/-- One character of the scan loop shared by `_verify_json_integrity`
(source lines 82-113) and the extractor's span scan (source lines 232-269):
escape consumption, backslash inside a string, unescaped quote toggling,
and depth counting outside strings. -/
def stepChar (st : ScanSt) (c : Char) : ScanSt :=
  if st.esc then { st with esc := false }
  else if c = '\\' && st.inStr then { st with esc := true }
  else if c = '"' then { st with inStr := !st.inStr }
  else if st.inStr then st
  else if c = '{' then { st with bb := st.bb + 1 }
  else if c = '}' then { st with bb := st.bb - 1 }
  else if c = '[' then { st with kb := st.kb + 1 }
  else if c = ']' then { st with kb := st.kb - 1 }
  else st

/-- Whether this character reaches the balance checks at the bottom of the
loop body (none of the `continue` branches fired): evaluated on the state
before the character. -/
def checked (st : ScanSt) (c : Char) : Bool :=
  !st.esc && !(c = '\\' && st.inStr) && !(c = '"') && !st.inStr

/-- Folding the scan over a character list. -/
def scanList (st : ScanSt) (cs : List Char) : ScanSt := cs.foldl stepChar st

/-- Loop of `_verify_json_integrity`: early exit on a negative balance at a
checked character, then the final balance conditions of source line 116. -/
def verifyAux (st : ScanSt) : List Char → Bool
  | [] => st.bb = 0 && st.kb = 0 && !st.inStr
  | c :: rest =>
    let st2 := stepChar st c
    if checked st c && (st2.bb < 0 || st2.kb < 0) then false
    else verifyAux st2 rest

/-- Model of `_verify_json_integrity` (source lines 65-116); empty input is
rejected up front (line 74). -/
def verify_json_integrity (s : String) : Bool :=
  if s = "" then false else verifyAux scanInit s.data


/-! ### `extract_clean_json` (source lines 181-290) -/

/-- Span-start search of source lines 212-219: the suffix beginning at the
first `{` or `[`, together with that starting character. -/
def findStart : List Char → Option (Char × List Char)
  | [] => none
  | c :: rest =>
    if c = '{' ∨ c = '[' then some (c, c :: rest) else findStart rest

/-- Span-end scan of source lines 224-269, relative to the span start: the
index of the first character, processed outside the `continue` branches,
after which both balances are zero (the two arms of the source's check,
lines 264-269, for the two possible starting characters). -/
def findEndAux (sc : Char) (st : ScanSt) (i : Nat) : List Char → Option Nat
  | [] => none
  | c :: rest =>
    let st2 := stepChar st c
    if checked st c &&
        ((sc = '{' && st2.bb = 0 && st2.kb = 0)
          || (sc = '[' && st2.kb = 0 && st2.bb = 0)) then some i
    else findEndAux sc st2 (i + 1) rest

def findEnd (sc : Char) (cs : List Char) : Option Nat :=
  findEndAux sc scanInit 0 cs

/-- Candidate substring of `extract_clean_json` before the integrity check
(source lines 212-276): noise removal, span discovery, the
`json_end <= json_start` guard, slicing and `strip()`.  Working on the
suffix that starts at the span start, the source's absolute `json_end`
becomes the relative index `r`. -/
def candidateOf (t : String) : Option String :=
  match findStart (cleanedOf t) with
  | none => none
  | some (sc, suffix) =>
    match findEnd sc suffix with
    | none => none
    | some r =>
      if r = 0 then none
      else some (String.mk (trimChars (suffix.take (r + 1))))

/-- Model of `extract_clean_json` (source lines 181-290). -/
def extract_clean_json (t : String) : String :=
  if t = "" then ""
  else
    match candidateOf t with
    | none => ""
    | some c =>
      if verify_json_integrity c then
        if is_valid_json (sanitize_json_string_values c) then
          sanitize_json_string_values c
        else ""
      else ""


/-! ### Predicates used by the specification statements -/

/-- Absence of both placeholder markers in the lowercased text, the
semantic-acceptance condition of `is_valid_json` (source lines 31-34). -/
def noPlaceholder (s : String) : Prop :=
  containsSub "example".data (lowerChars s.data) = false ∧
    containsSub "domain.com".data (lowerChars s.data) = false

/-- Acceptance condition on the representative record, as the specification
phrases it: the decoded object itself, or the first element of a non-empty
decoded array when that element is an object, holds `domain` or `patterns`;
arrays with a non-object first element are accepted without the key check,
and a scalar top level admits no representative record. -/
def repOk : J → Prop
  | .obj fs => hasRequired fs = true
  | .arr .nil => False
  | .arr (.cons first _) =>
    match first with
    | .obj fs => hasRequired fs = true
    | _ => True
  | _ => False

/-- Documents the round-trip claims quantify over: an object holding
`domain` or `patterns`, or an array whose first element is such an object. -/
def repOkStrong : J → Prop
  | .obj fs => hasRequired fs = true
  | .arr (.cons (.obj fs) _) => hasRequired fs = true
  | _ => False

mutual
/-- Structural agreement up to string values: same constructors, same
numbers, booleans and nulls, same keys in the same order; string leaves
free. -/
def sameShapeJ : J → J → Bool
  | .null, .null => true
  | .bool a, .bool b => a = b
  | .num a, .num b => a = b
  | .str _, .str _ => true
  | .arr xs, .arr ys => sameShapeA xs ys
  | .obj fs, .obj gs => sameShapeO fs gs
  | _, _ => false

/-- Pointwise `sameShapeJ` on lists. -/
def sameShapeA : JArr → JArr → Bool
  | .nil, .nil => true
  | .cons x xs, .cons y ys => sameShapeJ x y && sameShapeA xs ys
  | _, _ => false

/-- Pointwise `sameShapeJ` on dicts, requiring equal keys in equal order. -/
def sameShapeO : JObj → JObj → Bool
  | .nil, .nil => true
  | .cons k v tl, .cons k2 v2 tl2 => k = k2 && sameShapeJ v v2 && sameShapeO tl tl2
  | _, _ => false
end

mutual
/-- Every string value of the document satisfies `P`. -/
def allStringsJ (P : String → Bool) : J → Bool
  | .null => true
  | .bool _ => true
  | .num _ => true
  | .str s => P s
  | .arr xs => allStringsA P xs
  | .obj fs => allStringsO P fs

/-- `allStringsJ` over a list. -/
def allStringsA (P : String → Bool) : JArr → Bool
  | .nil => true
  | .cons x tl => allStringsJ P x && allStringsA P tl

/-- `allStringsJ` over a dict (keys are never cleaned, so only values
count). -/
def allStringsO (P : String → Bool) : JObj → Bool
  | .nil => true
  | .cons _ v tl => allStringsJ P v && allStringsO P tl
end

mutual
/-- Fuel consumed by `parseV` on the serialization of a value (an upper
bound used by the round-trip lemma). -/
def jfuel : J → Nat
  | .null => 1
  | .bool _ => 1
  | .num _ => 1
  | .str _ => 1
  | .arr xs => 1 + afuel xs
  | .obj fs => 1 + ofuel fs

/-- Fuel consumed by `parseElems` on serialized array elements. -/
def afuel : JArr → Nat
  | .nil => 1
  | .cons x tl => 1 + jfuel x + afuel tl

/-- Fuel consumed by `parseFields` on serialized dict entries. -/
def ofuel : JObj → Nat
  | .nil => 1
  | .cons _ v tl => 1 + jfuel v + ofuel tl
end

/-- Continuation constraint of the round-trip lemma: what follows a
serialized value never starts with a digit (it is empty or starts with a
separator or closer), so a serialized integer is not extended. -/
def restOk : List Char → Prop
  | [] => True
  | c :: _ => c.isDigit = false

/-- Every state reached by the scan strictly after a character keeps the
brace balance at least `b` and the bracket balance at least `k` (the entry
state itself is not constrained). -/
def allPrefGe (b k : Int) : ScanSt → List Char → Prop
  | _, [] => True
  | st, c :: rest =>
    (b ≤ (stepChar st c).bb ∧ k ≤ (stepChar st c).kb) ∧
      allPrefGe b k (stepChar st c) rest

/-- A serializable document whose string value holds a character outside the
extractor's allow-list (the `/` is deleted by the character filter). -/
def slashDoc : J := J.obj (JObj.cons "domain" (J.str "a/b.com") JObj.nil)

/-- A serializable document carrying the format-label artifact on both ends
of its domain value. -/
def labelDoc : J := J.obj (JObj.cons "domain" (J.str "jsonab.comjson") JObj.nil)

/-! ### Concrete evaluations of the embedded functions -/

example : jdumps (.obj (.cons "a" (.num 1) (.cons "b" (.str "x") .nil)))
    = "\x7b\"a\": 1, \"b\": \"x\"\x7d" := by decide
example : jdumps (.arr (.cons (.num (-12)) (.cons .null .nil))) = "[-12, null]" := by
  decide
example : jdumps (.str "a\"b\\c\n") = "\"a\\\"b\\\\c\\n\"" := by decide
example : jparse "\x7b\"a\": 1, \"b\": [true, null, \"x\"]\x7d"
    = some (.obj (.cons "a" (.num 1)
        (.cons "b" (.arr (.cons (.bool true) (.cons .null (.cons (.str "x") .nil))))
          .nil))) := by decide
example : jparse " [ -3 , \"a\\nb\" ] "
    = some (.arr (.cons (.num (-3)) (.cons (.str "a\nb") .nil))) := by decide
example : jparse "\x7b\"a\": 1,\x7d" = none := by decide
example : jparse "[1.5]" = none := by decide
example : jparse "01" = none := by decide
example : jparse "\"\\u0041\"" = some (.str "A") := by decide
example : jparse "" = none := by decide
example : jparse "\x7b\"a\" \"b\"\x7d" = none := by decide
example : String.mk (cleanedOf "Use code with caution.\njson\x7b\"a\": 1\x7d")
    = "\x7b\"a\": 1\x7d" := by decide
example : String.mk (cleanedOf "```json\n\x7b\"a\"\x7d\n```") = "\x7b\"a\"\x7d" := by decide
example : String.mk (cleanedOf "x jsonabm y") = "x jsonabm y" := by decide
example : domainMatch "abm.com".data = true := by decide
example : domainMatch "ab.comjson".data = true := by decide
example : domainMatch "a".data = false := by decide
example : domainMatch "ab.c".data = false := by decide
example : domainMatch ".com".data = false := by decide
example : domainMatch "a-b.org".data = true := by decide
example : clean_value "jsonabm.comjson" = "abm.com" := by decide
example : clean_value "jsonjsonab.comjson" = "ab.comjson" := by decide
example : clean_value " Use code with caution. ok " = "ok" := by decide
example : clean_value "json" = "json" := by decide
example : containsSub "dom".data "a domx".data = true := by decide
example : containsSub "dom".data "a dmox".data = false := by decide
example : is_valid_json "\x7b\"domain\": \"abm.com\"\x7d" = true := by decide
example : is_valid_json "\x7b\"domain\": \"example.com\"\x7d" = false := by decide
example : is_valid_json "\x7b\"a\": 1\x7d" = false := by decide
example : is_valid_json "[]" = false := by decide
example : is_valid_json "[\x7b\"patterns\": [\"a\"]\x7d]" = true := by decide
example : is_valid_json "[1, 2]" = true := by decide
example : verify_json_integrity "\x7b\"a\": \"\x7b\x7d[]\"\x7d" = true := by decide
example : verify_json_integrity "\x7b\"a\": \"x" = false := by decide
example : verify_json_integrity "" = false := by decide
example : verify_json_integrity "\x7d\x7b" = false := by decide
example : verify_json_integrity "[\x7b\x7d]" = true := by decide
example : extract_clean_json "no json here" = "" := by decide
example : extract_clean_json "\x7b\"domain\": \"example.com\"\x7d" = "" := by decide
example : extract_clean_json "[]" = "" := by decide
example : extract_clean_json "x \x7b\"domain\": \"a.com\"\x7d y"
    = "\x7b\"domain\": \"a.com\"\x7d" := by decide
example : extract_clean_json "[\x7b\"patterns\": [\"a\"]\x7d]"
    = "[\x7b\"patterns\": [\"a\"]\x7d]" := by decide
example : extract_clean_json "\x7b\"a\": \x7b\"b\": 1\x7d, \"domain\": \"q.io\"\x7d"
    = "\x7b\"a\": \x7b\"b\": 1\x7d, \"domain\": \"q.io\"\x7d" := by decide
/-! ### Helper lemmas -/

theorem mem_dropDot {a : Char} {cs : List Char} (h : a ∈ dropDot cs) : a ∈ cs := by
  unfold dropDot at h
  split at h
  · exact List.mem_cons_of_mem _ h
  · exact h

theorem mem_dropWhile {p : Char → Bool} {a : Char} :
    ∀ {cs : List Char}, a ∈ cs.dropWhile p → a ∈ cs := by
  intro cs h
  induction cs with
  | nil => simpa using h
  | cons c rest ih =>
    rw [List.dropWhile_cons] at h
    split at h
    · exact List.mem_cons_of_mem _ (ih h)
    · exact h

theorem mem_rmCautionGo {a : Char} :
    ∀ (f : Nat) {cs : List Char}, a ∈ rmCautionGo f cs → a ∈ cs := by
  intro f
  induction f with
  | zero => intro cs h; simpa [rmCautionGo] using h
  | succ f ih =>
    intro cs h
    match cs with
    | [] => simpa [rmCautionGo] using h
    | c :: rest =>
      rw [rmCautionGo] at h
      split at h
      · exact List.drop_subset 21 _ (mem_dropDot (ih h))
      · rcases List.mem_cons.mp h with h | h
        · exact h ▸ List.mem_cons_self _ _
        · exact List.mem_cons_of_mem _ (ih h)

theorem mem_rmFenceJsonGo {a : Char} :
    ∀ (f : Nat) {cs : List Char}, a ∈ rmFenceJsonGo f cs → a ∈ cs := by
  intro f
  induction f with
  | zero => intro cs h; simpa [rmFenceJsonGo] using h
  | succ f ih =>
    intro cs h
    match cs with
    | [] => simpa [rmFenceJsonGo] using h
    | c :: rest =>
      rw [rmFenceJsonGo] at h
      split at h
      · exact List.drop_subset 7 _ (mem_dropWhile (ih h))
      · rcases List.mem_cons.mp h with h | h
        · exact h ▸ List.mem_cons_self _ _
        · exact List.mem_cons_of_mem _ (ih h)

theorem mem_rmFenceGo {a : Char} :
    ∀ (f : Nat) {cs : List Char}, a ∈ rmFenceGo f cs → a ∈ cs := by
  intro f
  induction f with
  | zero => intro cs h; simpa [rmFenceGo] using h
  | succ f ih =>
    intro cs h
    match cs with
    | [] => simpa [rmFenceGo] using h
    | c :: rest =>
      rw [rmFenceGo] at h
      split at h
      · exact List.drop_subset 3 _ (mem_dropWhile (ih h))
      · rcases List.mem_cons.mp h with h | h
        · exact h ▸ List.mem_cons_self _ _
        · exact List.mem_cons_of_mem _ (ih h)

theorem mem_rmLabelGo {a : Char} :
    ∀ (f : Nat) (prev : Option Char) {cs : List Char}, a ∈ rmLabelGo f prev cs → a ∈ cs := by
  intro f
  induction f with
  | zero => intro prev cs h; simpa [rmLabelGo] using h
  | succ f ih =>
    intro prev cs h
    match cs with
    | [] => simpa [rmLabelGo] using h
    | c :: rest =>
      rw [rmLabelGo] at h
      split at h
      · exact List.drop_subset 4 _ (ih _ h)
      · rcases List.mem_cons.mp h with h | h
        · exact h ▸ List.mem_cons_self _ _
        · exact List.mem_cons_of_mem _ (ih _ h)

theorem mem_cleanedOf {a : Char} {t : String} (h : a ∈ cleanedOf t) : a ∈ t.data := by
  unfold cleanedOf filterAllowed rmLabel rmFence rmFenceJson rmCaution at h
  exact mem_rmCautionGo _ (mem_rmFenceJsonGo _ (mem_rmFenceGo _ (mem_rmLabelGo _ _
    (List.mem_of_mem_filter h))))

theorem findStart_eq_none {cs : List Char}
    (h : ∀ c ∈ cs, ¬(c = '{' ∨ c = '[')) : findStart cs = none := by
  induction cs with
  | nil => rfl
  | cons c rest ih =>
    rw [findStart]
    rw [if_neg (h c (List.mem_cons_self _ _))]
    exact ih fun x hx => h x (List.mem_cons_of_mem _ hx)

/-! ### Claim theorems -/

/-- C10: `_verify_json_integrity` applied to the empty string returns
`False` (rejected up front at source lines 74-75), although the empty scan
trivially meets the balance conditions: zero balances, not inside a
string. -/
theorem verify_empty_false :
    verify_json_integrity "" = false ∧
      (scanList scanInit "".data).bb = 0 ∧ (scanList scanInit "".data).kb = 0 ∧
      (scanList scanInit "".data).inStr = false := by
  decide

/-- C8: on input that fails to decode as JSON,
`_sanitize_json_string_values` returns its input unchanged (fail-open,
source lines 131-134). -/
theorem sanitize_fail_open (s : String) (h : jparse s = none) :
    sanitize_json_string_values s = s := by
  unfold sanitize_json_string_values
  rw [h]

theorem sanitize_fail_open_witness :
    jparse "not json" = none ∧ sanitize_json_string_values "not json" = "not json" :=
  ⟨by decide, sanitize_fail_open "not json" (by decide)⟩

/-- C2: `extract_clean_json` is a total function of its input, and every
failure — no candidate span recovered, integrity-check failure, or semantic
rejection of the sanitized candidate — resolves to the empty string: a
non-empty result arises only on the fully validated path.  (Exceptions of
the Python collaborators are modelled by `Option`/fail-open returns, all
of which are handled inside the definition.) -/
theorem extract_failures_to_empty (t : String) :
    extract_clean_json t = "" ∨
      ∃ c, candidateOf t = some c ∧ verify_json_integrity c = true ∧
        is_valid_json (sanitize_json_string_values c) = true ∧
        extract_clean_json t = sanitize_json_string_values c := by
  unfold extract_clean_json
  by_cases ht : t = ""
  · left; simp [ht]
  · rw [if_neg ht]
    match hc : candidateOf t with
    | none => left; rfl
    | some c =>
      by_cases hv : verify_json_integrity c = true
      · by_cases hval : is_valid_json (sanitize_json_string_values c) = true
        · right
          exact ⟨c, rfl, hv, hval, by simp [hv, hval]⟩
        · left
          simp [hv, hval]
      · left
        simp [hv]

/-- C7: on text containing no `{` and no `[`, `extract_clean_json` returns
the empty string — the noise-removal steps only delete characters, so the
span search of source lines 212-222 finds no start. -/
theorem extract_empty_of_no_bracket (t : String)
    (h : ∀ c ∈ t.data, ¬(c = '{' ∨ c = '[')) : extract_clean_json t = "" := by
  unfold extract_clean_json
  by_cases ht : t = ""
  · simp [ht]
  · rw [if_neg ht]
    have hnone : candidateOf t = none := by
      unfold candidateOf
      rw [findStart_eq_none fun c hc => h c (mem_cleanedOf hc)]
    rw [hnone]

theorem extract_empty_of_no_bracket_witness :
    (∀ c ∈ ("no json here" : String).data, ¬(c = '{' ∨ c = '[')) ∧
      extract_clean_json "no json here" = "" :=
  ⟨by decide, extract_empty_of_no_bracket "no json here" (by decide)⟩

theorem stepChar_bal_of_not_checked {st : ScanSt} {c : Char}
    (h : checked st c = false) :
    (stepChar st c).bb = st.bb ∧ (stepChar st c).kb = st.kb := by
  unfold checked at h
  unfold stepChar
  split_ifs with h1 h2 h3 h4 <;> simp_all

theorem verifyAux_conditions :
    ∀ (cs : List Char) (st : ScanSt), 0 ≤ st.bb → 0 ≤ st.kb →
      verifyAux st cs = true →
      (∀ n, 0 ≤ (scanList st (cs.take n)).bb ∧ 0 ≤ (scanList st (cs.take n)).kb) ∧
        (scanList st cs).bb = 0 ∧ (scanList st cs).kb = 0 ∧
        (scanList st cs).inStr = false := by
  intro cs
  induction cs with
  | nil =>
    intro st hb hk h
    simp only [verifyAux, Bool.and_eq_true, decide_eq_true_eq] at h
    obtain ⟨⟨h1, h2⟩, h3⟩ := h
    refine ⟨fun n => by simpa [scanList] using And.intro hb hk, h1, h2, ?_⟩
    simpa [scanList] using h3
  | cons c rest ih =>
    intro st hb hk h
    rw [verifyAux] at h
    set st2 := stepChar st c with hst2
    by_cases hcond : (checked st c && ((st2.bb < 0 : Bool) || (st2.kb < 0 : Bool))) = true
    · rw [if_pos hcond] at h; exact absurd h (by simp)
    · rw [if_neg hcond] at h
      have hnn : 0 ≤ st2.bb ∧ 0 ≤ st2.kb := by
        by_cases hch : checked st c = true
        · simp only [hch, Bool.true_and, Bool.or_eq_true, decide_eq_true_eq] at hcond
          push_neg at hcond
          omega
        · have hb2 := stepChar_bal_of_not_checked (Bool.eq_false_iff.mpr hch)
          rw [hst2]
          omega
      obtain ⟨hpre, hfin⟩ := ih st2 hnn.1 hnn.2 h
      constructor
      · intro n
        match n with
        | 0 => exact ⟨hb, hk⟩
        | n + 1 =>
          simpa only [List.take_succ_cons, scanList, List.foldl_cons] using hpre n
      · simpa only [scanList, List.foldl_cons] using hfin

/-- C6: `_verify_json_integrity` returns `True` only if, under the
string/escape-aware scan of the whole input, the brace balance and the
bracket balance are non-negative after every prefix, both end at exactly
zero, and the scan does not end inside an open string; and concretely it
accepts `{"a": "{}[]"}` (brackets inside a string are not counted) and
rejects the unterminated `{"a": "x`. -/
theorem verify_balance_conditions :
    (∀ s : String, verify_json_integrity s = true →
      (∀ n, 0 ≤ (scanList scanInit (s.data.take n)).bb ∧
            0 ≤ (scanList scanInit (s.data.take n)).kb) ∧
        (scanList scanInit s.data).bb = 0 ∧ (scanList scanInit s.data).kb = 0 ∧
        (scanList scanInit s.data).inStr = false) ∧
      verify_json_integrity "\x7b\"a\": \"\x7b\x7d[]\"\x7d" = true ∧
      verify_json_integrity "\x7b\"a\": \"x" = false := by
  refine ⟨fun s h => ?_, by decide, by decide⟩
  unfold verify_json_integrity at h
  split at h
  · exact absurd h (by simp)
  · exact verifyAux_conditions s.data scanInit (by decide) (by decide) h

theorem verify_balance_conditions_witness :
    verify_json_integrity "\x7b\x7d" = true ∧
      ((∀ n, 0 ≤ (scanList scanInit (("\x7b\x7d" : String).data.take n)).bb ∧
            0 ≤ (scanList scanInit (("\x7b\x7d" : String).data.take n)).kb) ∧
        (scanList scanInit ("\x7b\x7d" : String).data).bb = 0 ∧
        (scanList scanInit ("\x7b\x7d" : String).data).kb = 0 ∧
        (scanList scanInit ("\x7b\x7d" : String).data).inStr = false) :=
  ⟨by decide, verify_balance_conditions.1 "\x7b\x7d" (by decide)⟩

/-! ### Round-trip of the serializer through the parser -/

theorem isDigit_ne {c : Char} (h : c.isDigit = true) :
    c ≠ '{' ∧ c ≠ '[' ∧ c ≠ '"' ∧ c ≠ 't' ∧ c ≠ 'f' ∧ c ≠ 'n' ∧ c ≠ '-'
      ∧ c ≠ ']' ∧ c ≠ '}' ∧ c ≠ ',' ∧ isJsonWs c = false := by
  refine ⟨?_, ?_, ?_, ?_, ?_, ?_, ?_, ?_, ?_, ?_, ?_⟩ <;>
    first
      | (intro e; subst e; exact absurd h (by decide))
      | (by_cases hw : isJsonWs c = true
         · exfalso
           simp only [isJsonWs, Bool.or_eq_true, decide_eq_true_eq] at hw
           rcases hw with ((rfl | rfl) | rfl) | rfl <;> exact absurd h (by decide)
         · simpa using hw)

theorem hexVal_hexCh (d : Nat) (h : d < 16) : hexVal (hexCh d) = some d := by
  have hfin : ∀ e : Fin 16, hexVal (hexCh e.val) = some e.val := by decide
  exact hfin ⟨d, h⟩

theorem readHex4_hex4 (n : Nat) (h : n < 65536) (rest : List Char) :
    readHex4 (hex4 n ++ rest) = some (n, rest) := by
  have h1 := hexVal_hexCh (n / 4096 % 16) (Nat.mod_lt _ (by omega))
  have h2 := hexVal_hexCh (n / 256 % 16) (Nat.mod_lt _ (by omega))
  have h3 := hexVal_hexCh (n / 16 % 16) (Nat.mod_lt _ (by omega))
  have h4 := hexVal_hexCh (n % 16) (Nat.mod_lt _ (by omega))
  simp only [hex4, List.cons_append, List.nil_append, readHex4, h1, h2, h3, h4]
  have heq : n / 4096 % 16 * 4096 + n / 256 % 16 * 256 + n / 16 % 16 * 16 + n % 16 = n := by
    omega
  rw [heq]

theorem mkChar_toNat (c : Char) : mkChar c.toNat = some c := by
  unfold mkChar
  have hv : c.toNat < 55296 ∨ (57343 < c.toNat ∧ c.toNat < 1114112) := c.valid
  rw [if_pos hv, Char.ofNat_toNat]

theorem digCh_isDigit (d : Nat) : (digCh d).isDigit = true := by
  unfold digCh
  split <;> decide

theorem digCh_toNat {d : Nat} (h : d < 10) : (digCh d).toNat = 48 + d := by
  interval_cases d <;> decide

theorem digCh_ne_zeroCh {d : Nat} (h : d < 10) (h0 : 0 < d) : digCh d ≠ '0' := by
  interval_cases d <;> decide

theorem natCharsGo_ne_nil {f n : Nat} (h : n < f) : natCharsGo f n ≠ [] := by
  match f with
  | g + 1 =>
    unfold natCharsGo
    split
    · simp
    · simp

theorem natCharsGo_digits {f : Nat} : ∀ {n : Nat}, ∀ c ∈ natCharsGo f n, c.isDigit = true := by
  induction f with
  | zero => intro n c hc; simp [natCharsGo] at hc
  | succ f ih =>
    intro n c hc
    unfold natCharsGo at hc
    split at hc
    · rcases List.mem_singleton.mp hc with rfl
      exact digCh_isDigit n
    · rcases List.mem_append.mp hc with hc | hc
      · exact ih _ hc
      · rcases List.mem_singleton.mp hc with rfl
        exact digCh_isDigit _

theorem natCharsGo_foldl {f : Nat} : ∀ {n : Nat} (a : Nat), n < f →
    (natCharsGo f n).foldl (fun a c => 10 * a + (c.toNat - 48)) a
      = a * 10 ^ (natCharsGo f n).length + n := by
  induction f with
  | zero => intro n a h; omega
  | succ f ih =>
    intro n a h
    unfold natCharsGo
    split
    · rename_i h10
      simp only [List.foldl_cons, List.foldl_nil, List.length_singleton]
      rw [digCh_toNat h10]
      ring_nf
      omega
    · rename_i h10
      push_neg at h10
      have hdiv : n / 10 < f := by
        have := Nat.div_lt_self (by omega : 0 < n) (by omega : 1 < 10)
        omega
      rw [List.foldl_append, ih a hdiv, List.length_append, List.length_singleton,
        List.foldl_cons, List.foldl_nil, digCh_toNat (Nat.mod_lt _ (by omega))]
      rw [pow_succ]
      have hmod : 48 + n % 10 - 48 = n % 10 := by omega
      rw [hmod]
      have := Nat.div_add_mod n 10
      ring_nf
      omega

theorem natCharsGo_head_ne_zero {f : Nat} : ∀ {n : Nat} {c : Char} {cs : List Char},
    n < f → 0 < n → natCharsGo f n = c :: cs → c ≠ '0' := by
  induction f with
  | zero => intro n c cs h; omega
  | succ f ih =>
    intro n c cs h h0 he
    unfold natCharsGo at he
    split at he
    · rename_i h10
      rcases List.cons.injEq .. ▸ he with ⟨rfl, -⟩
      exact digCh_ne_zeroCh h10 h0
    · rename_i h10
      push_neg at h10
      have hdiv : n / 10 < f := by
        have := Nat.div_lt_self (by omega : 0 < n) (by omega : 1 < 10)
        omega
      have h0' : 0 < n / 10 := Nat.div_pos h10 (by omega)
      obtain ⟨d, ds, hds⟩ := List.exists_cons_of_ne_nil (natCharsGo_ne_nil hdiv)
      rw [hds, List.cons_append] at he
      rcases List.cons.injEq .. ▸ he with ⟨rfl, -⟩
      exact ih hdiv h0' hds

theorem takeWhile_append_all {p : Char → Bool} :
    ∀ (A B : List Char), (∀ c ∈ A, p c = true) →
      List.takeWhile p (A ++ B) = A ++ List.takeWhile p B := by
  intro A
  induction A with
  | nil => intro B h; simp
  | cons a A ih =>
    intro B h
    rw [List.cons_append, List.takeWhile_cons, if_pos (h a (List.mem_cons_self _ _)),
      ih B fun c hc => h c (List.mem_cons_of_mem _ hc), List.cons_append]

theorem natChars_restOk_takeWhile {m : Nat} {rest : List Char} (hrest : restOk rest) :
    List.takeWhile Char.isDigit (natChars m ++ rest) = natChars m := by
  rw [takeWhile_append_all (natChars m) rest fun c hc => natCharsGo_digits c hc]
  have hnil : List.takeWhile Char.isDigit rest = [] := by
    match rest with
    | [] => rfl
    | c :: cs =>
      unfold restOk at hrest
      rw [List.takeWhile_cons, if_neg (by simp [hrest])]
  rw [hnil, List.append_nil]

theorem parseNatToken_natChars (m : Nat) (rest : List Char) (hrest : restOk rest) :
    parseNatToken (natChars m ++ rest) = some (m, rest) := by
  obtain ⟨d, dtl, hd0⟩ := List.exists_cons_of_ne_nil
    (natCharsGo_ne_nil (Nat.lt_succ_self m))
  have hd : natChars m = d :: dtl := hd0
  have hcond : ¬(d = '0' ∧ dtl ≠ []) := by
    rintro ⟨rfl, hne⟩
    by_cases hm : m < 10
    · have hd2 := hd
      unfold natChars natCharsGo at hd2
      rw [if_pos hm] at hd2
      rcases List.cons.injEq .. ▸ hd2 with ⟨-, h2⟩
      exact hne h2.symm
    · exact natCharsGo_head_ne_zero (Nat.lt_succ_self m) (by omega) hd0 rfl
  have hfold : (natChars m).foldl (fun a c => 10 * a + (c.toNat - 48)) 0 = m := by
    have hf := natCharsGo_foldl (f := m + 1) (n := m) 0 (Nat.lt_succ_self m)
    unfold natChars
    rw [hf]
    simp
  have hdrop : (natChars m ++ rest).drop (natChars m).length = rest :=
    List.drop_left _ _
  unfold parseNatToken
  simp only [natChars_restOk_takeWhile hrest]
  rw [hfold, hdrop, hd]
  show (if d = '0' ∧ dtl ≠ [] then none else some (m, rest)) = some (m, rest)
  rw [if_neg hcond]

theorem parseIntToken_intChars (n : Int) (rest : List Char) (hrest : restOk rest) :
    parseIntToken (intChars n ++ rest) = some (n, rest) := by
  match n with
  | .ofNat m =>
    obtain ⟨d, dtl, hd0⟩ := List.exists_cons_of_ne_nil
      (natCharsGo_ne_nil (Nat.lt_succ_self m))
    have hd : natChars m = d :: dtl := hd0
    have hdig : d.isDigit = true := natCharsGo_digits d (by rw [hd0]; exact List.mem_cons_self _ _)
    have hne : d ≠ '-' := (isDigit_ne hdig).2.2.2.2.2.2.1
    show parseIntToken (natChars m ++ rest) = some (Int.ofNat m, rest)
    rw [hd, List.cons_append, parseIntToken, if_neg hne, ← List.cons_append, ← hd,
      parseNatToken_natChars m rest hrest]
    rfl
  | .negSucc m =>
    show parseIntToken (('-' :: natChars (m + 1)) ++ rest) = some (Int.negSucc m, rest)
    rw [List.cons_append, parseIntToken, if_pos rfl, parseNatToken_natChars (m + 1) rest hrest]
    show some (-((m + 1 : Nat) : Int), rest) = some (Int.negSucc m, rest)
    have hneg : -((m + 1 : Nat) : Int) = Int.negSucc m := by
      rw [Int.negSucc_eq]
      push_cast
      ring
    rw [hneg]

theorem escChar_ne_nil (c : Char) : escChar c ≠ [] := by
  unfold escChar
  split_ifs <;> (try simp only [List.cons_append]) <;> exact List.cons_ne_nil _ _

theorem length_le_flatMap (l : List Char) : l.length ≤ (l.flatMap escChar).length := by
  induction l with
  | nil => simp
  | cons c l ih =>
    rw [List.flatMap_cons, List.length_append, List.length_cons]
    have := List.length_pos.2 (escChar_ne_nil c)
    omega

theorem decodeU_bmp (t : Nat) (ht : ¬(55296 ≤ t ∧ t ≤ 56319)) (h16 : t < 65536)
    (c : Char) (hm : mkChar t = some c) (X : List Char) :
    decodeU (hex4 t ++ X) = some (c, X) := by
  rw [decodeU, readHex4_hex4 t h16 X]
  simp only [if_neg ht, hm]

theorem decodeU_surr (t : Nat) (h1 : 65536 ≤ t) (h2 : t < 1114112)
    (c : Char) (hm : mkChar t = some c) (X : List Char) :
    decodeU (hex4 (55296 + (t - 65536) / 1024)
        ++ ('\\' :: 'u' :: (hex4 (56320 + (t - 65536) % 1024) ++ X)))
      = some (c, X) := by
  have hhi : 55296 + (t - 65536) / 1024 < 65536 := by omega
  have hlo : 56320 + (t - 65536) % 1024 < 65536 := by omega
  have hrange : 55296 ≤ 55296 + (t - 65536) / 1024 ∧ 55296 + (t - 65536) / 1024 ≤ 56319 := by
    omega
  have hrange2 : 56320 ≤ 56320 + (t - 65536) % 1024 ∧ 56320 + (t - 65536) % 1024 ≤ 57343 := by
    omega
  have harith : 65536 + (55296 + (t - 65536) / 1024 - 55296) * 1024
      + (56320 + (t - 65536) % 1024 - 56320) = t := by omega
  rw [decodeU, readHex4_hex4 _ hhi]
  simp only [if_pos hrange, readHex4_hex4 _ hlo, if_pos hrange2, harith, hm]

theorem parseStrGo_quote (g : Nat) (X : List Char) :
    parseStrGo (g + 1) ('"' :: X) = some ([], X) := rfl

theorem parseStrGo_backslash {Y : List Char} {c2 : Char} {r2 : List Char} (g : Nat)
    (h : decodeEsc Y = some (c2, r2)) :
    parseStrGo (g + 1) ('\\' :: Y) = (parseStrGo g r2).map fun p => (c2 :: p.1, p.2) := by
  rw [parseStrGo, if_neg (by decide), if_pos rfl, h]

theorem parseStrGo_unicode {Y : List Char} {c2 : Char} {r2 : List Char} (g : Nat)
    (h : decodeU Y = some (c2, r2)) :
    parseStrGo (g + 1) ('\\' :: 'u' :: Y)
      = (parseStrGo g r2).map fun p => (c2 :: p.1, p.2) := by
  have h2 : decodeEsc ('u' :: Y) = some (c2, r2) := h
  exact parseStrGo_backslash g h2

theorem parseStrGo_plain {c : Char} (g : Nat) (X : List Char)
    (h1 : ¬c = '"') (h2 : ¬c = '\\') (h3 : 32 ≤ c.toNat) :
    parseStrGo (g + 1) (c :: X) = (parseStrGo g X).map fun p => (c :: p.1, p.2) := by
  rw [parseStrGo, if_neg h1, if_neg h2, if_pos h3]

theorem parseStrGo_flatMap :
    ∀ (l : List Char) (g : Nat) (rest : List Char), l.length < g →
      parseStrGo g (l.flatMap escChar ++ '"' :: rest) = some (l, rest)
  | [], g, rest, hg => by
    match g, hg with
    | g' + 1, _ =>
      simp only [List.flatMap_nil, List.nil_append]
      exact parseStrGo_quote g' rest
  | c :: l, g, rest, hg => by
    match g, hg with
    | g' + 1, _ =>
      have hg' : l.length < g' := by
        have : (c :: l).length = l.length + 1 := rfl
        omega
      have hIH := parseStrGo_flatMap l g' rest hg'
      rw [List.flatMap_cons, List.append_assoc]
      have hval : c.toNat < 55296 ∨ (57343 < c.toNat ∧ c.toNat < 1114112) := c.valid
      by_cases h1 : c = '"'
      · subst h1
        rw [show escChar '"' = ['\\', '"'] from rfl]
        simp only [List.cons_append, List.nil_append]
        rw [parseStrGo_backslash g' (rfl : decodeEsc ('"' :: _) = _), hIH]
        rfl
      · by_cases h2 : c = '\\'
        · subst h2
          rw [show escChar '\\' = ['\\', '\\'] from rfl]
          simp only [List.cons_append, List.nil_append]
          rw [parseStrGo_backslash g' (rfl : decodeEsc ('\\' :: _) = _), hIH]
          rfl
        · by_cases h3 : c = '\n'
          · subst h3
            rw [show escChar '\n' = ['\\', 'n'] from rfl]
            simp only [List.cons_append, List.nil_append]
            rw [parseStrGo_backslash g' (rfl : decodeEsc ('n' :: _) = _), hIH]
            rfl
          · by_cases h4 : c = '\t'
            · subst h4
              rw [show escChar '\t' = ['\\', 't'] from rfl]
              simp only [List.cons_append, List.nil_append]
              rw [parseStrGo_backslash g' (rfl : decodeEsc ('t' :: _) = _), hIH]
              rfl
            · by_cases h5 : c = '\r'
              · subst h5
                rw [show escChar '\r' = ['\\', 'r'] from rfl]
                simp only [List.cons_append, List.nil_append]
                rw [parseStrGo_backslash g' (rfl : decodeEsc ('r' :: _) = _), hIH]
                rfl
              · by_cases h6 : c.toNat = 8
                · rw [show escChar c = ['\\', 'b'] from by
                    unfold escChar
                    rw [if_neg h1, if_neg h2, if_neg h3, if_neg h4, if_neg h5, if_pos h6]]
                  simp only [List.cons_append, List.nil_append]
                  have hc : Char.ofNat 8 = c := by rw [← h6, Char.ofNat_toNat]
                  rw [parseStrGo_backslash g' (rfl : decodeEsc ('b' :: _) = _), hIH, hc]
                  rfl
                · by_cases h7 : c.toNat = 12
                  · rw [show escChar c = ['\\', 'f'] from by
                      unfold escChar
                      rw [if_neg h1, if_neg h2, if_neg h3, if_neg h4, if_neg h5, if_neg h6,
                        if_pos h7]]
                    simp only [List.cons_append, List.nil_append]
                    have hc : Char.ofNat 12 = c := by rw [← h7, Char.ofNat_toNat]
                    rw [parseStrGo_backslash g' (rfl : decodeEsc ('f' :: _) = _), hIH, hc]
                    rfl
                  · by_cases h8 : c.toNat < 32
                    · rw [show escChar c = '\\' :: 'u' :: hex4 c.toNat from by
                        unfold escChar
                        rw [if_neg h1, if_neg h2, if_neg h3, if_neg h4, if_neg h5, if_neg h6,
                          if_neg h7, if_pos h8]]
                      simp only [List.cons_append]
                      have hdec := decodeU_bmp c.toNat (by omega) (by omega) c
                        (mkChar_toNat c) (l.flatMap escChar ++ '"' :: rest)
                      rw [parseStrGo_unicode g' hdec, hIH]
                      rfl
                    · by_cases h9 : c.toNat ≤ 126
                      · rw [show escChar c = [c] from by
                          unfold escChar
                          rw [if_neg h1, if_neg h2, if_neg h3, if_neg h4, if_neg h5, if_neg h6,
                            if_neg h7, if_neg h8, if_pos h9]]
                        simp only [List.cons_append, List.nil_append]
                        rw [parseStrGo_plain g' _ h1 h2 (by omega), hIH]
                        rfl
                      · by_cases h10 : c.toNat ≤ 65535
                        · rw [show escChar c = '\\' :: 'u' :: hex4 c.toNat from by
                            unfold escChar
                            rw [if_neg h1, if_neg h2, if_neg h3, if_neg h4, if_neg h5, if_neg h6,
                              if_neg h7, if_neg h8, if_neg h9, if_pos h10]]
                          simp only [List.cons_append]
                          have hdec := decodeU_bmp c.toNat (by omega) (by omega) c
                            (mkChar_toNat c) (l.flatMap escChar ++ '"' :: rest)
                          rw [parseStrGo_unicode g' hdec, hIH]
                          rfl
                        · rw [show escChar c = '\\' :: 'u' :: hex4 (55296 + (c.toNat - 65536) / 1024)
                              ++ ('\\' :: 'u' :: hex4 (56320 + (c.toNat - 65536) % 1024)) from by
                            unfold escChar
                            rw [if_neg h1, if_neg h2, if_neg h3, if_neg h4, if_neg h5, if_neg h6,
                              if_neg h7, if_neg h8, if_neg h9, if_neg h10]]
                          simp only [List.cons_append, List.append_assoc]
                          have hdec := decodeU_surr c.toNat (by omega) (by omega) c
                            (mkChar_toNat c) (l.flatMap escChar ++ '"' :: rest)
                          rw [parseStrGo_unicode g' hdec, hIH]
                          rfl
  termination_by l => l.length

theorem parseStrBody_flatMap (l : List Char) (rest : List Char) :
    parseStrBody (l.flatMap escChar ++ '"' :: rest) = some (l, rest) := by
  unfold parseStrBody
  refine parseStrGo_flatMap l _ rest ?_
  have h1 := length_le_flatMap l
  have h2 := List.length_append (l.flatMap escChar) ('"' :: rest)
  have h3 : ('"' :: rest).length = rest.length + 1 := rfl
  omega

theorem skipWs_cons_false {c : Char} (t : List Char) (h : isJsonWs c = false) :
    skipWs (c :: t) = c :: t := by
  simp [skipWs, List.dropWhile_cons, h]

theorem skipWs_cons_true {c : Char} (t : List Char) (h : isJsonWs c = true) :
    skipWs (c :: t) = skipWs t := by
  simp [skipWs, List.dropWhile_cons, h]

theorem restOk_of_head (c : Char) (X : List Char) (h : c.isDigit = false) :
    restOk (c :: X) := h

theorem jfuel_pos (v : J) : 1 ≤ jfuel v := by
  cases v <;> simp [jfuel]

theorem intChars_head (n : Int) :
    ∃ d dtl, intChars n = d :: dtl ∧ (d = '-' ∨ d.isDigit = true) := by
  match n with
  | .ofNat m =>
    obtain ⟨d, dtl, hd⟩ := List.exists_cons_of_ne_nil
      (natCharsGo_ne_nil (Nat.lt_succ_self m))
    exact ⟨d, dtl, hd, Or.inr (natCharsGo_digits d (by rw [hd]; exact List.mem_cons_self _ _))⟩
  | .negSucc m => exact ⟨'-', _, rfl, Or.inl rfl⟩

theorem dumpJ_head (v : J) :
    ∃ c r, dumpJ v = c :: r ∧ isJsonWs c = false ∧ c ≠ ']' ∧ c ≠ '}' := by
  match v with
  | .null => exact ⟨'n', _, rfl, by decide, by decide, by decide⟩
  | .bool true => exact ⟨'t', _, rfl, by decide, by decide, by decide⟩
  | .bool false => exact ⟨'f', _, rfl, by decide, by decide, by decide⟩
  | .num n =>
    obtain ⟨d, dtl, hd, hor⟩ := intChars_head n
    rcases hor with rfl | hdig
    · exact ⟨'-', dtl, hd, by decide, by decide, by decide⟩
    · have hh := isDigit_ne hdig
      exact ⟨d, dtl, hd, hh.2.2.2.2.2.2.2.2.2.2, hh.2.2.2.2.2.2.2.1, hh.2.2.2.2.2.2.2.2.1⟩
  | .str s => exact ⟨'"', _, rfl, by decide, by decide, by decide⟩
  | .arr .nil => exact ⟨'[', _, rfl, by decide, by decide, by decide⟩
  | .arr (.cons x tl) => exact ⟨'[', _, rfl, by decide, by decide, by decide⟩
  | .obj .nil => exact ⟨'{', _, rfl, by decide, by decide, by decide⟩
  | .obj (.cons k v tl) => exact ⟨'{', _, rfl, by decide, by decide, by decide⟩

theorem dumpElems_head (x : J) (tl : JArr) :
    ∃ c r, dumpElems (.cons x tl) = c :: r ∧ isJsonWs c = false ∧ c ≠ ']' := by
  obtain ⟨c, r, hcr, hws, hne, -⟩ := dumpJ_head x
  match tl with
  | .nil => exact ⟨c, r, hcr, hws, hne⟩
  | .cons y tl' =>
    refine ⟨c, r ++ ',' :: ' ' :: dumpElems (.cons y tl'), ?_, hws, hne⟩
    rw [dumpElems, hcr, List.cons_append]

theorem dumpFields_head (k : String) (v : J) (tl : JObj) :
    ∃ r, dumpFields (.cons k v tl) = '"' :: r := by
  match tl with
  | .nil =>
    refine ⟨k.data.flatMap escChar ++ ['"'] ++ ':' :: ' ' :: dumpJ v, ?_⟩
    rw [dumpFields]
    show dq k ++ ':' :: ' ' :: dumpJ v = _
    rw [dq]
    simp [List.cons_append, List.append_assoc]
  | .cons k2 v2 tl' =>
    refine ⟨k.data.flatMap escChar ++ ['"']
      ++ ':' :: ' ' :: dumpJ v ++ ',' :: ' ' :: dumpFields (.cons k2 v2 tl'), ?_⟩
    rw [dumpFields]
    show dq k ++ ':' :: ' ' :: dumpJ v ++ ',' :: ' ' :: dumpFields (.cons k2 v2 tl') = _
    rw [dq]
    simp [List.cons_append, List.append_assoc]

theorem parseV_str (g : Nat) (Z : List Char) :
    parseV (g + 1) ('"' :: Z) = (parseStrBody Z).map fun p => (J.str (String.mk p.1), p.2) :=
  rfl

theorem parseV_intToken (g : Nat) (c : Char) (r : List Char)
    (h : c = '-' ∨ c.isDigit = true) :
    parseV (g + 1) (c :: r) = (parseIntToken (c :: r)).map fun p => (J.num p.1, p.2) := by
  obtain ⟨n1, n2, n3, n4, n5, n6⟩ :
      c ≠ '{' ∧ c ≠ '[' ∧ c ≠ '"' ∧ c ≠ 't' ∧ c ≠ 'f' ∧ c ≠ 'n' := by
    rcases h with rfl | hd
    · exact ⟨by decide, by decide, by decide, by decide, by decide, by decide⟩
    · have hh := isDigit_ne hd
      exact ⟨hh.1, hh.2.1, hh.2.2.1, hh.2.2.2.1, hh.2.2.2.2.1, hh.2.2.2.2.2.1⟩
  simp [parseV, parseLeaf, n1, n2, n3, n4, n5, n6, h]

theorem parseV_arr_cons (g : Nat) (c : Char) (r : List Char)
    (h1 : isJsonWs c = false) (h2 : ¬c = ']') :
    parseV (g + 1) ('[' :: c :: r) = (parseElems g (c :: r)).map fun p => (J.arr p.1, p.2) := by
  have hs : skipWs (c :: r) = c :: r := skipWs_cons_false _ h1
  simp [parseV, hs, h2]

theorem parseV_obj_cons (g : Nat) (c : Char) (r : List Char)
    (h1 : isJsonWs c = false) (h2 : ¬c = '}') :
    parseV (g + 1) ('{' :: c :: r) = (parseFields g (c :: r)).map fun p => (J.obj p.1, p.2) := by
  have hs : skipWs (c :: r) = c :: r := skipWs_cons_false _ h1
  simp [parseV, hs, h2]

theorem parseKeyColon_dq (k : String) (Z : List Char) :
    parseKeyColon (dq k ++ ':' :: ' ' :: Z) = some (k.data, skipWs Z) := by
  have hform : dq k ++ ':' :: ' ' :: Z
      = '"' :: (k.data.flatMap escChar ++ '"' :: (':' :: ' ' :: Z)) := by
    rw [dq]
    simp [List.cons_append, List.append_assoc]
  rw [hform]
  have hbody := parseStrBody_flatMap k.data (':' :: ' ' :: Z)
  have hs1 : skipWs (':' :: ' ' :: Z) = ':' :: ' ' :: Z :=
    skipWs_cons_false _ (by decide)
  have hs2 : skipWs (' ' :: Z) = skipWs Z := skipWs_cons_true _ (by decide)
  simp [parseKeyColon, hbody, hs1, hs2]

mutual
/-- Round trip: the parser recovers every serialized value, leaving the
continuation untouched. -/
theorem rtJ : ∀ (v : J) (f : Nat) (rest : List Char), jfuel v ≤ f → restOk rest →
    parseV f (dumpJ v ++ rest) = some (v, rest)
  | .null, f, rest, hf, hr => by
    obtain ⟨g, rfl⟩ : ∃ g, f = g + 1 := ⟨f - 1, by have := jfuel_pos J.null; omega⟩
    rfl
  | .bool true, f, rest, hf, hr => by
    obtain ⟨g, rfl⟩ : ∃ g, f = g + 1 := ⟨f - 1, by have := jfuel_pos (J.bool true); omega⟩
    rfl
  | .bool false, f, rest, hf, hr => by
    obtain ⟨g, rfl⟩ : ∃ g, f = g + 1 := ⟨f - 1, by have := jfuel_pos (J.bool false); omega⟩
    rfl
  | .num n, f, rest, hf, hr => by
    obtain ⟨g, rfl⟩ : ∃ g, f = g + 1 := ⟨f - 1, by have := jfuel_pos (J.num n); omega⟩
    obtain ⟨d, dtl, hd, hor⟩ := intChars_head n
    show parseV (g + 1) (intChars n ++ rest) = some (J.num n, rest)
    rw [hd, List.cons_append, parseV_intToken g d _ hor, ← List.cons_append, ← hd,
      parseIntToken_intChars n rest hr]
    rfl
  | .str s, f, rest, hf, hr => by
    obtain ⟨g, rfl⟩ : ∃ g, f = g + 1 := ⟨f - 1, by have := jfuel_pos (J.str s); omega⟩
    obtain ⟨sd⟩ := s
    show parseV (g + 1) (dq (String.mk sd) ++ rest) = some (J.str (String.mk sd), rest)
    have hform : dq (String.mk sd) ++ rest
        = '"' :: (sd.flatMap escChar ++ '"' :: rest) := by
      rw [dq]
      simp [List.cons_append, List.append_assoc]
    rw [hform, parseV_str, parseStrBody_flatMap]
    rfl
  | .arr .nil, f, rest, hf, hr => by
    obtain ⟨g, rfl⟩ : ∃ g, f = g + 1 := ⟨f - 1, by have := jfuel_pos (J.arr .nil); omega⟩
    rfl
  | .arr (.cons x tl), f, rest, hf, hr => by
    obtain ⟨g, rfl⟩ : ∃ g, f = g + 1 :=
      ⟨f - 1, by have := jfuel_pos (J.arr (.cons x tl)); omega⟩
    have hje : jfuel (J.arr (.cons x tl)) = 1 + afuel (.cons x tl) := rfl
    obtain ⟨c, r, hcr, hws, hne⟩ := dumpElems_head x tl
    have hform : dumpJ (J.arr (.cons x tl)) ++ rest = '[' :: c :: (r ++ ']' :: rest) := by
      show ('[' :: dumpElems (.cons x tl) ++ [']']) ++ rest = _
      rw [hcr]
      simp [List.cons_append, List.append_assoc]
    rw [hform, parseV_arr_cons g c _ hws hne, ← List.cons_append, ← hcr,
      rtElems x tl g rest (by omega)]
    rfl
  | .obj .nil, f, rest, hf, hr => by
    obtain ⟨g, rfl⟩ : ∃ g, f = g + 1 := ⟨f - 1, by have := jfuel_pos (J.obj .nil); omega⟩
    rfl
  | .obj (.cons k v tl), f, rest, hf, hr => by
    obtain ⟨g, rfl⟩ : ∃ g, f = g + 1 :=
      ⟨f - 1, by have := jfuel_pos (J.obj (.cons k v tl)); omega⟩
    have hjo : jfuel (J.obj (.cons k v tl)) = 1 + ofuel (.cons k v tl) := rfl
    obtain ⟨r, hfr⟩ := dumpFields_head k v tl
    have hform : dumpJ (J.obj (.cons k v tl)) ++ rest = '{' :: '"' :: (r ++ '}' :: rest) := by
      show ('{' :: dumpFields (.cons k v tl) ++ ['}']) ++ rest = _
      rw [hfr]
      simp [List.cons_append, List.append_assoc]
    rw [hform, parseV_obj_cons g '"' _ (by decide) (by decide), ← List.cons_append, ← hfr,
      rtFields k v tl g rest (by omega)]
    rfl
  termination_by v => sizeOf v

/-- Round trip for serialized array elements terminated by `]`. -/
theorem rtElems : ∀ (x : J) (tl : JArr) (f : Nat) (rest : List Char),
    afuel (.cons x tl) ≤ f →
    parseElems f (dumpElems (.cons x tl) ++ ']' :: rest) = some (.cons x tl, rest)
  | x, .nil, f, rest, hfuel => by
    have hfe : afuel (.cons x .nil) = 1 + jfuel x + 1 := rfl
    obtain ⟨g, rfl⟩ : ∃ g, f = g + 1 := ⟨f - 1, by omega⟩
    have hx := rtJ x g (']' :: rest) (by omega) (restOk_of_head _ _ (by decide))
    have hs : skipWs (']' :: rest) = ']' :: rest := skipWs_cons_false _ (by decide)
    show parseElems (g + 1) (dumpJ x ++ ']' :: rest) = some (.cons x .nil, rest)
    simp [parseElems, hx, hs]
  | x, .cons y tl', f, rest, hfuel => by
    have hfe : afuel (.cons x (.cons y tl')) = 1 + jfuel x + afuel (.cons y tl') := rfl
    have hay : 1 ≤ afuel (.cons y tl') := by
      have : afuel (.cons y tl') = 1 + jfuel y + afuel tl' := rfl
      omega
    obtain ⟨g, rfl⟩ : ∃ g, f = g + 1 := ⟨f - 1, by have := jfuel_pos x; omega⟩
    have hform : dumpElems (.cons x (.cons y tl')) ++ ']' :: rest
        = dumpJ x ++ (',' :: ' ' :: (dumpElems (.cons y tl') ++ ']' :: rest)) := by
      show (dumpJ x ++ ',' :: ' ' :: dumpElems (.cons y tl')) ++ ']' :: rest = _
      simp [List.cons_append, List.append_assoc]
    have hx := rtJ x g (',' :: ' ' :: (dumpElems (.cons y tl') ++ ']' :: rest))
      (by omega) (restOk_of_head _ _ (by decide))
    have hs1 : skipWs (',' :: ' ' :: (dumpElems (.cons y tl') ++ ']' :: rest))
        = ',' :: ' ' :: (dumpElems (.cons y tl') ++ ']' :: rest) :=
      skipWs_cons_false _ (by decide)
    obtain ⟨c, r, hcr, hws, -⟩ := dumpElems_head y tl'
    have hs2 : skipWs (' ' :: (dumpElems (.cons y tl') ++ ']' :: rest))
        = dumpElems (.cons y tl') ++ ']' :: rest := by
      rw [skipWs_cons_true _ (by decide), hcr, List.cons_append,
        skipWs_cons_false _ hws, ← List.cons_append, ← hcr]
    have hrec := rtElems y tl' g rest (by omega)
    rw [hform]
    simp [parseElems, hx, hs1, hs2, hrec]
  termination_by x tl => sizeOf (JArr.cons x tl)

/-- Round trip for serialized dict entries terminated by `}`. -/
theorem rtFields : ∀ (k : String) (v : J) (tl : JObj) (f : Nat) (rest : List Char),
    ofuel (.cons k v tl) ≤ f →
    parseFields f (dumpFields (.cons k v tl) ++ '}' :: rest) = some (.cons k v tl, rest)
  | k, v, .nil, f, rest, hfuel => by
    have hfo : ofuel (.cons k v .nil) = 1 + jfuel v + 1 := rfl
    obtain ⟨g, rfl⟩ : ∃ g, f = g + 1 := ⟨f - 1, by omega⟩
    have hform : dumpFields (.cons k v .nil) ++ '}' :: rest
        = dq k ++ ':' :: ' ' :: (dumpJ v ++ '}' :: rest) := by
      show (dq k ++ ':' :: ' ' :: dumpJ v) ++ '}' :: rest = _
      simp [List.cons_append, List.append_assoc]
    obtain ⟨c, r, hcr, hws, -, -⟩ := dumpJ_head v
    have hsv : skipWs (dumpJ v ++ '}' :: rest) = dumpJ v ++ '}' :: rest := by
      rw [hcr, List.cons_append, skipWs_cons_false _ hws, ← List.cons_append, ← hcr]
    have hv := rtJ v g ('}' :: rest) (by omega) (restOk_of_head _ _ (by decide))
    have hs3 : skipWs ('}' :: rest) = '}' :: rest := skipWs_cons_false _ (by decide)
    obtain ⟨kd⟩ := k
    rw [hform]
    simp [parseFields, parseKeyColon_dq, hsv, hv, hs3]
  | k, v, .cons k2 v2 tl', f, rest, hfuel => by
    have hfo : ofuel (.cons k v (.cons k2 v2 tl'))
        = 1 + jfuel v + ofuel (.cons k2 v2 tl') := rfl
    have hoy : 1 ≤ ofuel (.cons k2 v2 tl') := by
      have : ofuel (.cons k2 v2 tl') = 1 + jfuel v2 + ofuel tl' := rfl
      omega
    obtain ⟨g, rfl⟩ : ∃ g, f = g + 1 := ⟨f - 1, by have := jfuel_pos v; omega⟩
    have hform : dumpFields (.cons k v (.cons k2 v2 tl')) ++ '}' :: rest
        = dq k ++ ':' :: ' ' :: (dumpJ v
            ++ (',' :: ' ' :: (dumpFields (.cons k2 v2 tl') ++ '}' :: rest))) := by
      show (dq k ++ ':' :: ' ' :: dumpJ v ++ ',' :: ' ' :: dumpFields (.cons k2 v2 tl'))
          ++ '}' :: rest = _
      simp [List.cons_append, List.append_assoc]
    obtain ⟨c, r, hcr, hws, -, -⟩ := dumpJ_head v
    have hsv : skipWs (dumpJ v ++ (',' :: ' ' :: (dumpFields (.cons k2 v2 tl') ++ '}' :: rest)))
        = dumpJ v ++ (',' :: ' ' :: (dumpFields (.cons k2 v2 tl') ++ '}' :: rest)) := by
      rw [hcr, List.cons_append, skipWs_cons_false _ hws, ← List.cons_append, ← hcr]
    have hv := rtJ v g (',' :: ' ' :: (dumpFields (.cons k2 v2 tl') ++ '}' :: rest))
      (by omega) (restOk_of_head _ _ (by decide))
    have hs1 : skipWs (',' :: ' ' :: (dumpFields (.cons k2 v2 tl') ++ '}' :: rest))
        = ',' :: ' ' :: (dumpFields (.cons k2 v2 tl') ++ '}' :: rest) :=
      skipWs_cons_false _ (by decide)
    obtain ⟨r2, hfr⟩ := dumpFields_head k2 v2 tl'
    have hs2 : skipWs (' ' :: (dumpFields (.cons k2 v2 tl') ++ '}' :: rest))
        = dumpFields (.cons k2 v2 tl') ++ '}' :: rest := by
      rw [skipWs_cons_true _ (by decide), hfr, List.cons_append,
        skipWs_cons_false _ (by decide), ← List.cons_append, ← hfr]
    have hrec := rtFields k2 v2 tl' g rest (by omega)
    obtain ⟨kd⟩ := k
    rw [hform]
    simp [parseFields, parseKeyColon_dq, hsv, hv, hs1, hs2, hrec]
  termination_by k v tl => sizeOf (JObj.cons k v tl)
end

mutual
/-- The fuel `jparse` supplies always covers a serialized value. -/
theorem jfuel_le_dumpJ : ∀ (v : J), jfuel v ≤ 2 * (dumpJ v).length
  | .null => by simp [jfuel, dumpJ]
  | .bool true => by simp [jfuel, dumpJ]
  | .bool false => by simp [jfuel, dumpJ]
  | .num n => by
    obtain ⟨d, dtl, hd, -⟩ := intChars_head n
    show jfuel (J.num n) ≤ 2 * (intChars n).length
    rw [hd]
    simp only [jfuel, List.length_cons]
    omega
  | .str s => by
    show jfuel (J.str s) ≤ 2 * (dq s).length
    rw [dq]
    simp only [jfuel, List.length_cons, List.length_append]
    omega
  | .arr .nil => by simp [jfuel, afuel, dumpJ]
  | .arr (.cons x tl) => by
    have ha := afuel_le_dumpElems (.cons x tl)
    have hlen : (dumpJ (J.arr (.cons x tl))).length = (dumpElems (.cons x tl)).length + 2 := by
      show (('[' :: dumpElems (.cons x tl)) ++ [']']).length = _
      simp
    have : jfuel (J.arr (.cons x tl)) = 1 + afuel (.cons x tl) := rfl
    omega
  | .obj .nil => by simp [jfuel, ofuel, dumpJ]
  | .obj (.cons k v tl) => by
    have ho := ofuel_le_dumpFields (.cons k v tl)
    have hlen : (dumpJ (J.obj (.cons k v tl))).length = (dumpFields (.cons k v tl)).length + 2 := by
      show (('{' :: dumpFields (.cons k v tl)) ++ ['}']).length = _
      simp
    have : jfuel (J.obj (.cons k v tl)) = 1 + ofuel (.cons k v tl) := rfl
    omega
  termination_by v => sizeOf v

/-- Fuel bound for serialized array elements. -/
theorem afuel_le_dumpElems : ∀ (xs : JArr), afuel xs ≤ 2 * (dumpElems xs).length + 3
  | .nil => by simp [afuel, dumpElems]
  | .cons x .nil => by
    have hx := jfuel_le_dumpJ x
    have : afuel (.cons x .nil) = 1 + jfuel x + 1 := rfl
    have hlen : (dumpElems (.cons x .nil)).length = (dumpJ x).length := rfl
    omega
  | .cons x (.cons y tl) => by
    have hx := jfuel_le_dumpJ x
    have ha := afuel_le_dumpElems (.cons y tl)
    have : afuel (.cons x (.cons y tl)) = 1 + jfuel x + afuel (.cons y tl) := rfl
    have hlen : (dumpElems (.cons x (.cons y tl))).length
        = (dumpJ x).length + 2 + (dumpElems (.cons y tl)).length := by
      show (dumpJ x ++ ',' :: ' ' :: dumpElems (.cons y tl)).length = _
      simp
      omega
    omega
  termination_by xs => sizeOf xs

/-- Fuel bound for serialized dict entries. -/
theorem ofuel_le_dumpFields : ∀ (fs : JObj), ofuel fs ≤ 2 * (dumpFields fs).length + 3
  | .nil => by simp [ofuel, dumpFields]
  | .cons k v .nil => by
    have hv := jfuel_le_dumpJ v
    have : ofuel (.cons k v .nil) = 1 + jfuel v + 1 := rfl
    have hlen : (dumpFields (.cons k v .nil)).length
        = (dq k).length + 2 + (dumpJ v).length := by
      show (dq k ++ ':' :: ' ' :: dumpJ v).length = _
      simp
      omega
    omega
  | .cons k v (.cons k2 v2 tl) => by
    have hv := jfuel_le_dumpJ v
    have ho := ofuel_le_dumpFields (.cons k2 v2 tl)
    have : ofuel (.cons k v (.cons k2 v2 tl)) = 1 + jfuel v + ofuel (.cons k2 v2 tl) := rfl
    have hlen : (dumpFields (.cons k v (.cons k2 v2 tl))).length
        = (dq k).length + 2 + (dumpJ v).length + 2 + (dumpFields (.cons k2 v2 tl)).length := by
      show (dq k ++ ':' :: ' ' :: dumpJ v ++ ',' :: ' ' :: dumpFields (.cons k2 v2 tl)).length = _
      simp
      omega
    omega
  termination_by fs => sizeOf fs
end

/-- Serialize-then-parse is the identity on the JSON model: `json.loads`
recovers every `json.dumps` output. -/
theorem jparse_jdumps (v : J) : jparse (jdumps v) = some v := by
  obtain ⟨c, r, hcr, hws, -, -⟩ := dumpJ_head v
  have hdata : (jdumps v).data = dumpJ v := rfl
  have hskip : skipWs (dumpJ v) = dumpJ v := by
    rw [hcr, skipWs_cons_false _ hws, ← hcr]
  have hrt := rtJ v (2 * (dumpJ v).length + 4) []
    (by have := jfuel_le_dumpJ v; omega) trivial
  rw [List.append_nil] at hrt
  simp only [jparse, hdata, hskip, hrt]
  rfl

/-! ### Shape preservation and idempotence of the sanitizer -/

mutual
/-- `clean_recursive` only rewrites string leaves. -/
theorem sameShapeJ_cleanJ : ∀ (v : J), sameShapeJ v (cleanJ v) = true
  | .null => rfl
  | .bool b => by simp [cleanJ, sameShapeJ]
  | .num n => by simp [cleanJ, sameShapeJ]
  | .str s => rfl
  | .arr xs => by
    rw [cleanJ]
    show sameShapeA xs (cleanA xs) = true
    exact sameShapeA_cleanA xs
  | .obj fs => by
    rw [cleanJ]
    show sameShapeO fs (cleanO fs) = true
    exact sameShapeO_cleanO fs

/-- Pointwise version on lists. -/
theorem sameShapeA_cleanA : ∀ (xs : JArr), sameShapeA xs (cleanA xs) = true
  | .nil => rfl
  | .cons x tl => by
    rw [cleanA]
    show (sameShapeJ x (cleanJ x) && sameShapeA tl (cleanA tl)) = true
    rw [sameShapeJ_cleanJ x, sameShapeA_cleanA tl]
    rfl

/-- Pointwise version on dicts. -/
theorem sameShapeO_cleanO : ∀ (fs : JObj), sameShapeO fs (cleanO fs) = true
  | .nil => rfl
  | .cons k v tl => by
    rw [cleanO]
    show (decide (k = k) && sameShapeJ v (cleanJ v) && sameShapeO tl (cleanO tl)) = true
    rw [sameShapeJ_cleanJ v, sameShapeO_cleanO tl]
    simp
end

/-- C9: on decodable input, `_sanitize_json_string_values` changes only
string-typed values: the cleaned output decodes to `clean_recursive` of the
parsed document, which has the same constructors, keys in the same order,
and identical non-string scalars. -/
theorem sanitize_preserves_shape (s : String) (d : J) (h : jparse s = some d) :
    jparse (sanitize_json_string_values s) = some (cleanJ d) ∧
      sameShapeJ d (cleanJ d) = true := by
  have hs : sanitize_json_string_values s = jdumps (cleanJ d) := by
    unfold sanitize_json_string_values
    rw [h]
  rw [hs]
  exact ⟨jparse_jdumps (cleanJ d), sameShapeJ_cleanJ d⟩

theorem sanitize_preserves_shape_witness :
    jparse "\x7b\"a\": 1, \"b\": \"x\"\x7d"
        = some (.obj (.cons "a" (.num 1) (.cons "b" (.str "x") .nil))) ∧
      (jparse (sanitize_json_string_values "\x7b\"a\": 1, \"b\": \"x\"\x7d")
          = some (cleanJ (.obj (.cons "a" (.num 1) (.cons "b" (.str "x") .nil)))) ∧
        sameShapeJ (.obj (.cons "a" (.num 1) (.cons "b" (.str "x") .nil)))
          (cleanJ (.obj (.cons "a" (.num 1) (.cons "b" (.str "x") .nil)))) = true) :=
  ⟨by decide, sanitize_preserves_shape _ _ (by decide)⟩

mutual
/-- When every string value is stable under a second `clean_value`, a second
recursive cleaning is the identity on the cleaned document. -/
theorem cleanJ_idem : ∀ (v : J),
    allStringsJ (fun w => clean_value (clean_value w) == clean_value w) v = true →
    cleanJ (cleanJ v) = cleanJ v
  | .null, _ => rfl
  | .bool b, _ => rfl
  | .num n, _ => rfl
  | .str w, h => by
    have hw : clean_value (clean_value w) = clean_value w := by
      have hb : (clean_value (clean_value w) == clean_value w) = true := h
      exact eq_of_beq hb
    show J.str (clean_value (clean_value w)) = J.str (clean_value w)
    rw [hw]
  | .arr xs, h => by
    show J.arr (cleanA (cleanA xs)) = J.arr (cleanA xs)
    rw [cleanA_idem xs h]
  | .obj fs, h => by
    show J.obj (cleanO (cleanO fs)) = J.obj (cleanO fs)
    rw [cleanO_idem fs h]

/-- List version of `cleanJ_idem`. -/
theorem cleanA_idem : ∀ (xs : JArr),
    allStringsA (fun w => clean_value (clean_value w) == clean_value w) xs = true →
    cleanA (cleanA xs) = cleanA xs
  | .nil, _ => rfl
  | .cons x tl, h => by
    have hx : allStringsJ (fun w => clean_value (clean_value w) == clean_value w) x = true
        ∧ allStringsA (fun w => clean_value (clean_value w) == clean_value w) tl = true := by
      have hh : (allStringsJ (fun w => clean_value (clean_value w) == clean_value w) x
          && allStringsA (fun w => clean_value (clean_value w) == clean_value w) tl) = true := h
      exact ⟨(Bool.and_eq_true .. ▸ hh).1, (Bool.and_eq_true .. ▸ hh).2⟩
    show JArr.cons (cleanJ (cleanJ x)) (cleanA (cleanA tl)) = JArr.cons (cleanJ x) (cleanA tl)
    rw [cleanJ_idem x hx.1, cleanA_idem tl hx.2]

/-- Dict version of `cleanJ_idem`. -/
theorem cleanO_idem : ∀ (fs : JObj),
    allStringsO (fun w => clean_value (clean_value w) == clean_value w) fs = true →
    cleanO (cleanO fs) = cleanO fs
  | .nil, _ => rfl
  | .cons k v tl, h => by
    have hx : allStringsJ (fun w => clean_value (clean_value w) == clean_value w) v = true
        ∧ allStringsO (fun w => clean_value (clean_value w) == clean_value w) tl = true := by
      have hh : (allStringsJ (fun w => clean_value (clean_value w) == clean_value w) v
          && allStringsO (fun w => clean_value (clean_value w) == clean_value w) tl) = true := h
      exact ⟨(Bool.and_eq_true .. ▸ hh).1, (Bool.and_eq_true .. ▸ hh).2⟩
    show JObj.cons k (cleanJ (cleanJ v)) (cleanO (cleanO tl)) = JObj.cons k (cleanJ v) (cleanO tl)
    rw [cleanJ_idem v hx.1, cleanO_idem tl hx.2]
end

/-- C4 counterexample: `_sanitize_json_string_values` is not idempotent on
the syntactically valid JSON `{"a": "jsonjsonab.comjson"}` — the two-pass
affix loop leaves a trailing `json` that only the second application
removes. -/
theorem sanitize_not_idempotent_cex :
    jparse "\x7b\"a\": \"jsonjsonab.comjson\"\x7d" ≠ none ∧
      sanitize_json_string_values
          (sanitize_json_string_values "\x7b\"a\": \"jsonjsonab.comjson\"\x7d")
        ≠ sanitize_json_string_values "\x7b\"a\": \"jsonjsonab.comjson\"\x7d" := by
  constructor
  · decide
  · decide

/-- C4 (amended): `_sanitize_json_string_values` is idempotent on decodable
input whose string values are each fixed by a second `clean_value` pass; a
single pass can leave residual artifacts (nested boilerplate, still
strippable `json` affixes), so unconditional idempotence fails. -/
theorem sanitize_idempotent_of_value_stable (x : String) (d : J)
    (h : jparse x = some d)
    (hstable : allStringsJ (fun w => clean_value (clean_value w) == clean_value w) d = true) :
    sanitize_json_string_values (sanitize_json_string_values x)
      = sanitize_json_string_values x := by
  have hx : sanitize_json_string_values x = jdumps (cleanJ d) := by
    unfold sanitize_json_string_values
    rw [h]
  rw [hx]
  unfold sanitize_json_string_values
  rw [jparse_jdumps (cleanJ d)]
  show jdumps (cleanJ (cleanJ d)) = jdumps (cleanJ d)
  rw [cleanJ_idem d hstable]

theorem sanitize_idempotent_of_value_stable_witness :
    jparse "\x7b\"a\": \"b.com\"\x7d" = some (.obj (.cons "a" (.str "b.com") .nil)) ∧
      allStringsJ (fun w => clean_value (clean_value w) == clean_value w)
        (.obj (.cons "a" (.str "b.com") .nil)) = true ∧
      sanitize_json_string_values (sanitize_json_string_values "\x7b\"a\": \"b.com\"\x7d")
        = sanitize_json_string_values "\x7b\"a\": \"b.com\"\x7d" :=
  ⟨by decide, by decide,
    sanitize_idempotent_of_value_stable "\x7b\"a\": \"b.com\"\x7d"
      (.obj (.cons "a" (.str "b.com") .nil)) (by decide) (by decide)⟩

/-- C5 counterexample: on the spec's scenario input, `extract_clean_json`
does not return the claimed compact string — `json.dumps` re-encodes with
its default `", "`/`": "` separators. -/
theorem extract_scenario_cex :
    extract_clean_json
        "Use code with caution.\njson\x7b\"domain\":\"jsonabm.comjson\",\"notes\":\"ok\"\x7d"
      ≠ "\x7b\"domain\":\"abm.com\",\"notes\":\"ok\"\x7d" := by
  decide

/-- C5 (amended): the scenario input yields the same document with the
boilerplate removed, the format label stripped and the `json` artifact
stripped from both ends of the domain value, rendered with `json.dumps`
default separators. -/
theorem extract_scenario_actual :
    extract_clean_json
        "Use code with caution.\njson\x7b\"domain\":\"jsonabm.comjson\",\"notes\":\"ok\"\x7d"
      = "\x7b\"domain\": \"abm.com\", \"notes\": \"ok\"\x7d" := by
  decide

/-! ### Shape of the accepted candidate (claim C1) -/

theorem dropWhile_append_singleton {p : Char → Bool} {a : Char} (h : p a = false) :
    ∀ (A : List Char), ∃ B, List.dropWhile p (A ++ [a]) = B ++ [a] := by
  intro A
  induction A with
  | nil =>
    refine ⟨[], ?_⟩
    simp [List.dropWhile_cons, h]
  | cons x A ih =>
    by_cases hx : p x = true
    · obtain ⟨B, hB⟩ := ih
      exact ⟨B, by rw [List.cons_append, List.dropWhile_cons, if_pos hx, hB]⟩
    · exact ⟨x :: A, by rw [List.cons_append, List.dropWhile_cons, if_neg hx]⟩

theorem trimChars_cons_head {sc : Char} (X : List Char) (h : isPyWs sc = false) :
    ∃ B, trimChars (sc :: X) = sc :: B := by
  unfold trimChars
  rw [List.dropWhile_cons, if_neg (by simp [h])]
  rw [List.reverse_cons]
  obtain ⟨B, hB⟩ := dropWhile_append_singleton h X.reverse
  rw [hB]
  exact ⟨B.reverse, by simp⟩

theorem findStart_some {cs : List Char} {sc : Char} {suffix : List Char}
    (h : findStart cs = some (sc, suffix)) :
    (sc = '{' ∨ sc = '[') ∧ ∃ tail, suffix = sc :: tail := by
  induction cs with
  | nil => exact absurd h (by simp [findStart])
  | cons c rest ih =>
    rw [findStart] at h
    split at h
    · rcases Option.some.injEq .. ▸ h with hp
      obtain ⟨h1, h2⟩ := Prod.mk.injEq .. ▸ hp
      subst h1
      subst h2
      rename_i hbr
      exact ⟨hbr, rest, rfl⟩
    · exact ih h

theorem candidateOf_head {t : String} {c : String} (h : candidateOf t = some c) :
    ∃ sc tail, c.data = sc :: tail ∧ (sc = '{' ∨ sc = '[') := by
  unfold candidateOf at h
  split at h
  · exact absurd h (by simp)
  · rename_i sc suffix hfs
    split at h
    · exact absurd h (by simp)
    · rename_i r hfe
      split at h
      · exact absurd h (by simp)
      · rename_i hr0
        obtain ⟨hbr, tail, htail⟩ := findStart_some hfs
        have hws : isPyWs sc = false := by
          rcases hbr with rfl | rfl <;> decide
        have hc := Option.some.injEq .. ▸ h
        obtain ⟨g, hg⟩ : ∃ g, r + 1 = g + 1 := ⟨r, rfl⟩
        have htk : suffix.take (r + 1) = sc :: tail.take r := by
          rw [htail, List.take_succ_cons]
        obtain ⟨B, hB⟩ := trimChars_cons_head (tail.take r) hws
        refine ⟨sc, B, ?_, hbr⟩
        rw [← hc]
        show (trimChars (suffix.take (r + 1))) = sc :: B
        rw [htk, hB]

theorem jparse_head_obj {s : String} {v : J} {r : List Char}
    (hd : s.data = '{' :: r) (h : jparse s = some v) : ∃ fs, v = J.obj fs := by
  unfold jparse at h
  rw [hd, skipWs_cons_false _ (by decide)] at h
  replace h : (match parseV (2 * ('{' :: r).length + 4) ('{' :: r) with
      | some (w, rest) => if skipWs rest = [] then some w else none
      | none => none) = some v := h
  obtain ⟨g, hg⟩ : ∃ g, 2 * ('{' :: r).length + 4 = g + 1 :=
    ⟨2 * ('{' :: r).length + 3, by omega⟩
  rw [hg] at h
  simp only [parseV, if_true] at h
  rcases hsw : skipWs r with - | ⟨c2, r2⟩ <;> rw [hsw] at h
  · exact absurd h (by simp)
  · replace h : (match (if c2 = '}' then some (J.obj JObj.nil, r2)
        else Option.map (fun p => (J.obj p.1, p.2)) (parseFields g (c2 :: r2))) with
      | some (w, rest) => if skipWs rest = [] then some w else none
      | none => none) = some v := h
    by_cases hc2 : c2 = '}'
    · rw [if_pos hc2] at h
      replace h : (if skipWs r2 = [] then some (J.obj JObj.nil) else none) = some v := h
      split at h
      · exact ⟨.nil, (Option.some.injEq .. ▸ h).symm⟩
      · exact absurd h (by simp)
    · rw [if_neg hc2] at h
      rcases hpf : parseFields g (c2 :: r2) with - | ⟨fs, r3⟩ <;> rw [hpf] at h
      · exact absurd h (by simp)
      · replace h : (if skipWs r3 = [] then some (J.obj fs) else none) = some v := h
        split at h
        · exact ⟨fs, (Option.some.injEq .. ▸ h).symm⟩
        · exact absurd h (by simp)

theorem jparse_head_arr {s : String} {v : J} {r : List Char}
    (hd : s.data = '[' :: r) (h : jparse s = some v) : ∃ xs, v = J.arr xs := by
  unfold jparse at h
  rw [hd, skipWs_cons_false _ (by decide)] at h
  replace h : (match parseV (2 * ('[' :: r).length + 4) ('[' :: r) with
      | some (w, rest) => if skipWs rest = [] then some w else none
      | none => none) = some v := h
  obtain ⟨g, hg⟩ : ∃ g, 2 * ('[' :: r).length + 4 = g + 1 :=
    ⟨2 * ('[' :: r).length + 3, by omega⟩
  rw [hg] at h
  have hne : (('[' : Char) = '{') = False := by simp
  simp only [parseV, hne, if_false, if_true] at h
  rcases hsw : skipWs r with - | ⟨c2, r2⟩ <;> rw [hsw] at h
  · exact absurd h (by simp)
  · replace h : (match (if c2 = ']' then some (J.arr JArr.nil, r2)
        else Option.map (fun p => (J.arr p.1, p.2)) (parseElems g (c2 :: r2))) with
      | some (w, rest) => if skipWs rest = [] then some w else none
      | none => none) = some v := h
    by_cases hc2 : c2 = ']'
    · rw [if_pos hc2] at h
      replace h : (if skipWs r2 = [] then some (J.arr JArr.nil) else none) = some v := h
      split at h
      · exact ⟨.nil, (Option.some.injEq .. ▸ h).symm⟩
      · exact absurd h (by simp)
    · rw [if_neg hc2] at h
      rcases hpe : parseElems g (c2 :: r2) with - | ⟨xs, r3⟩ <;> rw [hpe] at h
      · exact absurd h (by simp)
      · replace h : (if skipWs r3 = [] then some (J.arr xs) else none) = some v := h
        split at h
        · exact ⟨xs, (Option.some.injEq .. ▸ h).symm⟩
        · exact absurd h (by simp)

theorem valid_sanitize_anatomy (c : String)
    (hhead : ∃ sc tail, c.data = sc :: tail ∧ (sc = '{' ∨ sc = '['))
    (hval : is_valid_json (sanitize_json_string_values c) = true) :
    ∃ d, jparse (sanitize_json_string_values c) = some d ∧
      noPlaceholder (sanitize_json_string_values c) ∧ repOk d := by
  obtain ⟨sc, tail, hdata, hbr⟩ := hhead
  rcases hp : jparse c with - | d0
  · have hsan : sanitize_json_string_values c = c := by
      unfold sanitize_json_string_values
      rw [hp]
    rw [hsan] at hval
    unfold is_valid_json at hval
    split at hval
    · exact absurd hval (by simp)
    · rw [hp] at hval
      exact absurd hval (by simp)
  · have hsan : sanitize_json_string_values c = jdumps (cleanJ d0) := by
      unfold sanitize_json_string_values
      rw [hp]
    have hshape : (∃ fs, d0 = J.obj fs) ∨ (∃ xs, d0 = J.arr xs) := by
      rcases hbr with rfl | rfl
      · exact Or.inl (jparse_head_obj hdata hp)
      · exact Or.inr (jparse_head_arr hdata hp)
    have hrt : jparse (sanitize_json_string_values c) = some (cleanJ d0) := by
      rw [hsan]
      exact jparse_jdumps (cleanJ d0)
    refine ⟨cleanJ d0, hrt, ?_⟩
    unfold is_valid_json at hval
    split at hval
    · exact absurd hval (by simp)
    · rw [hrt] at hval
      replace hval : (if (containsSub "example".data
              (lowerChars (sanitize_json_string_values c).data)
            || containsSub "domain.com".data
              (lowerChars (sanitize_json_string_values c).data)) = true
          then false
          else match cleanJ d0 with
            | .obj fs => hasRequired fs
            | .arr .nil => false
            | .arr (.cons first _) =>
              (match first with
               | .obj fs => hasRequired fs
               | _ => true)
            | _ => true) = true := hval
      by_cases hph : (containsSub "example".data (lowerChars (sanitize_json_string_values c).data)
          || containsSub "domain.com".data (lowerChars (sanitize_json_string_values c).data)) = true
      · rw [if_pos hph] at hval
        exact absurd hval (by simp)
      · rw [if_neg hph] at hval
        have hnp : noPlaceholder (sanitize_json_string_values c) := by
          constructor
          · rcases hb : containsSub "example".data
                (lowerChars (sanitize_json_string_values c).data) with - | -
            · rfl
            · exact absurd (by rw [hb]; simp) hph
          · rcases hb : containsSub "domain.com".data
                (lowerChars (sanitize_json_string_values c).data) with - | -
            · rfl
            · exact absurd (by rw [hb]; simp) hph
        refine ⟨hnp, ?_⟩
        rcases hshape with ⟨fs, rfl⟩ | ⟨xs, rfl⟩
        · show hasRequired (cleanO fs) = true
          exact hval
        · match xs with
          | .nil => exact absurd hval (by simp [cleanJ, cleanA])
          | .cons x tl =>
            have hca : cleanJ (J.arr (.cons x tl))
                = J.arr (.cons (cleanJ x) (cleanA tl)) := rfl
            rw [hca] at hval ⊢
            match hx : cleanJ x with
            | .obj fs2 =>
              rw [hx] at hval
              show hasRequired fs2 = true
              exact hval
            | .null | .bool _ | .num _ | .str _ | .arr _ =>
              trivial

/-- C1: for every input text the string returned by `extract_clean_json` is
either empty or a syntactically valid, semantically accepted JSON document:
it decodes successfully, its lowercase text contains neither placeholder
marker (`example` nor `domain.com`), and the representative record — the
decoded object itself, or the first element of a non-empty decoded array
when that element is an object — contains `domain` or `patterns`. -/
theorem extract_empty_or_accepted (t : String) :
    extract_clean_json t = "" ∨
      ∃ d, jparse (extract_clean_json t) = some d ∧
        noPlaceholder (extract_clean_json t) ∧ repOk d := by
  unfold extract_clean_json
  by_cases ht : t = ""
  · left; simp [ht]
  · rw [if_neg ht]
    match hc : candidateOf t with
    | none => left; rfl
    | some c =>
      by_cases hv : verify_json_integrity c = true
      · by_cases hval : is_valid_json (sanitize_json_string_values c) = true
        · right
          obtain ⟨d, h1, h2, h3⟩ :=
            valid_sanitize_anatomy c (candidateOf_head hc) hval
          exact ⟨d, by simpa [hv, hval] using h1,
            by simpa [hv, hval, noPlaceholder] using h2, h3⟩
        · left; simp [hv, hval]
      · left; simp [hv]

/-! ### Scanning the serializer output: the balance scan is neutral on a
serialized value and its balances never drop below the entry balances -/

theorem scanList_append (st : ScanSt) (a c : List Char) :
    scanList st (a ++ c) = scanList (scanList st a) c := by
  simp [scanList, List.foldl_append]

theorem allPrefGe_append {b k : Int} : ∀ {a : List Char} {st : ScanSt} {c : List Char},
    allPrefGe b k st a → allPrefGe b k (scanList st a) c → allPrefGe b k st (a ++ c)
  | [], _, _, _, hc => hc
  | x :: a, st, c, ha, hc =>
    ⟨ha.1, allPrefGe_append ha.2 hc⟩

theorem allPrefGe_mono {b k e m : Int} (hb : e ≤ b) (hk : m ≤ k) :
    ∀ {cs : List Char} {st : ScanSt}, allPrefGe b k st cs → allPrefGe e m st cs
  | [], _, _ => trivial
  | c :: rest, st, h =>
    ⟨⟨le_trans hb h.1.1, le_trans hk h.1.2⟩, allPrefGe_mono hb hk h.2⟩

theorem stepChar_inert {st : ScanSt} {c : Char} (hstr : st.inStr = false)
    (hesc : st.esc = false) (h1 : c ≠ '"') (h2 : c ≠ '{') (h3 : c ≠ '}')
    (h4 : c ≠ '[') (h5 : c ≠ ']') : stepChar st c = st := by
  simp [stepChar, hstr, hesc, h1, h2, h3, h4, h5]

theorem stepChar_instr {st : ScanSt} {c : Char} (hstr : st.inStr = true)
    (hesc : st.esc = false) (h1 : c ≠ '"') (h2 : c ≠ '\\') : stepChar st c = st := by
  simp [stepChar, hstr, hesc, h1, h2]

theorem seg_cons (b k : Int) (st : ScanSt) (c : Char) (cs : List Char)
    (h1 : stepChar st c = st) (hb : b ≤ st.bb) (hk : k ≤ st.kb)
    (h : scanList st cs = st ∧ allPrefGe b k st cs) :
    scanList st (c :: cs) = st ∧ allPrefGe b k st (c :: cs) := by
  constructor
  · show scanList (stepChar st c) cs = st
    rw [h1]; exact h.1
  · exact ⟨by rw [h1]; exact ⟨hb, hk⟩, by rw [h1]; exact h.2⟩

theorem seg_append {b k : Int} {st : ScanSt} {a c : List Char}
    (ha : scanList st a = st ∧ allPrefGe b k st a)
    (hc : scanList st c = st ∧ allPrefGe b k st c) :
    scanList st (a ++ c) = st ∧ allPrefGe b k st (a ++ c) := by
  constructor
  · rw [scanList_append, ha.1, hc.1]
  · exact allPrefGe_append ha.2 (by rw [ha.1]; exact hc.2)

theorem hexCh_ne (m : Nat) : hexCh m ≠ '"' ∧ hexCh m ≠ '\\' := by
  unfold hexCh
  split <;> exact ⟨by decide, by decide⟩

theorem hexCh_step (u w : Int) (m : Nat) :
    stepChar ⟨u, w, true, false⟩ (hexCh m) = ⟨u, w, true, false⟩ :=
  stepChar_instr rfl rfl (hexCh_ne m).1 (hexCh_ne m).2

theorem uSeq_scan (u w : Int) (m : Nat) :
    scanList ⟨u, w, true, false⟩ ('\\' :: 'u' :: hex4 m) = ⟨u, w, true, false⟩ ∧
      allPrefGe u w ⟨u, w, true, false⟩ ('\\' :: 'u' :: hex4 m) := by
  have hb : stepChar ⟨u, w, true, false⟩ '\\' = ⟨u, w, true, true⟩ := rfl
  have hu : stepChar ⟨u, w, true, true⟩ 'u' = ⟨u, w, true, false⟩ := rfl
  constructor
  · show scanList ⟨u, w, true, false⟩ (hex4 m) = ⟨u, w, true, false⟩
    rw [hex4]
    show scanList (stepChar (stepChar (stepChar (stepChar ⟨u, w, true, false⟩
      (hexCh (m / 4096 % 16))) (hexCh (m / 256 % 16))) (hexCh (m / 16 % 16)))
      (hexCh (m % 16))) [] = ⟨u, w, true, false⟩
    rw [hexCh_step, hexCh_step, hexCh_step, hexCh_step]
    rfl
  · rw [hex4]
    refine ⟨⟨?_, ?_⟩, ⟨?_, ?_⟩, ⟨?_, ?_⟩, ⟨?_, ?_⟩, ⟨?_, ?_⟩, ⟨?_, ?_⟩, trivial⟩ <;>
      simp [hb, hu, hexCh_step]

theorem escChar_scan (u w : Int) (c : Char) :
    scanList ⟨u, w, true, false⟩ (escChar c) = ⟨u, w, true, false⟩ ∧
      allPrefGe u w ⟨u, w, true, false⟩ (escChar c) := by
  unfold escChar
  split_ifs with h1 h2 h3 h4 h5 h6 h7 h8 h9 h10
  · exact ⟨rfl, ⟨le_refl u, le_refl w⟩, ⟨le_refl u, le_refl w⟩, trivial⟩
  · exact ⟨rfl, ⟨le_refl u, le_refl w⟩, ⟨le_refl u, le_refl w⟩, trivial⟩
  · exact ⟨rfl, ⟨le_refl u, le_refl w⟩, ⟨le_refl u, le_refl w⟩, trivial⟩
  · exact ⟨rfl, ⟨le_refl u, le_refl w⟩, ⟨le_refl u, le_refl w⟩, trivial⟩
  · exact ⟨rfl, ⟨le_refl u, le_refl w⟩, ⟨le_refl u, le_refl w⟩, trivial⟩
  · exact ⟨rfl, ⟨le_refl u, le_refl w⟩, ⟨le_refl u, le_refl w⟩, trivial⟩
  · exact ⟨rfl, ⟨le_refl u, le_refl w⟩, ⟨le_refl u, le_refl w⟩, trivial⟩
  · exact uSeq_scan u w c.toNat
  · have hs : stepChar ⟨u, w, true, false⟩ c = ⟨u, w, true, false⟩ :=
      stepChar_instr rfl rfl h1 h2
    refine ⟨?_, ?_⟩
    · show scanList (stepChar ⟨u, w, true, false⟩ c) [] = ⟨u, w, true, false⟩
      rw [hs]; rfl
    · exact ⟨by rw [hs]; exact ⟨le_refl u, le_refl w⟩, trivial⟩
  · exact uSeq_scan u w c.toNat
  · exact seg_append (uSeq_scan u w _) (uSeq_scan u w _)

theorem flatMap_escChar_scan (u w : Int) : ∀ (l : List Char),
    scanList ⟨u, w, true, false⟩ (l.flatMap escChar) = ⟨u, w, true, false⟩ ∧
      allPrefGe u w ⟨u, w, true, false⟩ (l.flatMap escChar)
  | [] => ⟨rfl, trivial⟩
  | c :: rest => by
    rw [List.flatMap_cons]
    exact seg_append (escChar_scan u w c) (flatMap_escChar_scan u w rest)

theorem dq_scan (u w : Int) (s : String) :
    scanList ⟨u, w, false, false⟩ (dq s) = ⟨u, w, false, false⟩ ∧
      allPrefGe u w ⟨u, w, false, false⟩ (dq s) := by
  obtain ⟨h1, h2⟩ := flatMap_escChar_scan u w s.data
  have hq : stepChar ⟨u, w, false, false⟩ '"' = ⟨u, w, true, false⟩ := rfl
  have hq2 : stepChar ⟨u, w, true, false⟩ '"' = ⟨u, w, false, false⟩ := rfl
  constructor
  · show scanList (stepChar ⟨u, w, false, false⟩ '"')
      (s.data.flatMap escChar ++ ['"']) = ⟨u, w, false, false⟩
    rw [hq, scanList_append, h1]
    rfl
  · refine ⟨⟨?_, ?_⟩, ?_⟩
    · rw [hq]
    · rw [hq]
    rw [hq]
    refine allPrefGe_append h2 ?_
    rw [h1]
    exact ⟨⟨by rw [hq2], by rw [hq2]⟩, trivial⟩

theorem inert_seg (u w b k : Int) (hb : b ≤ u) (hk : k ≤ w) :
    ∀ cs : List Char,
      (∀ c ∈ cs, c ≠ '"' ∧ c ≠ '{' ∧ c ≠ '}' ∧ c ≠ '[' ∧ c ≠ ']') →
      scanList ⟨u, w, false, false⟩ cs = ⟨u, w, false, false⟩ ∧
        allPrefGe b k ⟨u, w, false, false⟩ cs
  | [], _ => ⟨rfl, trivial⟩
  | c :: rest, h => by
    obtain ⟨h1, h2, h3, h4, h5⟩ := h c (List.mem_cons_self _ _)
    refine seg_cons b k _ c rest (stepChar_inert rfl rfl h1 h2 h3 h4 h5) hb hk ?_
    exact inert_seg u w b k hb hk rest (fun x hx => h x (List.mem_cons_of_mem _ hx))

theorem intChars_chars (n : Int) :
    ∀ c ∈ intChars n, c ≠ '"' ∧ c ≠ '{' ∧ c ≠ '}' ∧ c ≠ '[' ∧ c ≠ ']' := by
  have hdig : ∀ c : Char, c.isDigit = true →
      c ≠ '"' ∧ c ≠ '{' ∧ c ≠ '}' ∧ c ≠ '[' ∧ c ≠ ']' := by
    intro c hc
    refine ⟨?_, ?_, ?_, ?_, ?_⟩ <;> (intro h; rw [h] at hc; exact absurd hc (by decide))
  match n with
  | .ofNat m =>
    intro c hc
    exact hdig c (natCharsGo_digits c hc)
  | .negSucc m =>
    intro c hc
    replace hc : c ∈ '-' :: natChars (m + 1) := hc
    rw [List.mem_cons] at hc
    rcases hc with rfl | hc
    · exact ⟨by decide, by decide, by decide, by decide, by decide⟩
    · exact hdig c (natCharsGo_digits c hc)

theorem dq_seg (u w b k : Int) (hb : b ≤ u) (hk : k ≤ w) (s : String) :
    scanList ⟨u, w, false, false⟩ (dq s) = ⟨u, w, false, false⟩ ∧
      allPrefGe b k ⟨u, w, false, false⟩ (dq s) :=
  ⟨(dq_scan u w s).1, allPrefGe_mono hb hk (dq_scan u w s).2⟩

mutual
theorem scanJ : ∀ (v : J) (u w b k : Int), b ≤ u → k ≤ w →
    scanList ⟨u, w, false, false⟩ (dumpJ v) = ⟨u, w, false, false⟩ ∧
      allPrefGe b k ⟨u, w, false, false⟩ (dumpJ v)
  | .null, u, w, b, k, hb, hk =>
    inert_seg u w b k hb hk _ (by decide)
  | .bool true, u, w, b, k, hb, hk =>
    inert_seg u w b k hb hk _ (by decide)
  | .bool false, u, w, b, k, hb, hk =>
    inert_seg u w b k hb hk _ (by decide)
  | .num n, u, w, b, k, hb, hk =>
    inert_seg u w b k hb hk _ (intChars_chars n)
  | .str s, u, w, b, k, hb, hk => dq_seg u w b k hb hk s
  | .arr .nil, u, w, b, k, hb, hk => by
    constructor
    · show (⟨u, w + 1 - 1, false, false⟩ : ScanSt) = ⟨u, w, false, false⟩
      have hw : w + 1 - 1 = w := by omega
      rw [hw]
    · refine ⟨⟨?_, ?_⟩, ⟨?_, ?_⟩, trivial⟩
      · show b ≤ u; exact hb
      · show k ≤ w + 1; omega
      · show b ≤ u; exact hb
      · show k ≤ w + 1 - 1; omega
  | .arr (.cons x tl), u, w, b, k, hb, hk => by
    have hE := scanElems (.cons x tl) u (w + 1) b k hb (by omega)
    have hcl : stepChar ⟨u, w + 1, false, false⟩ ']'
        = ⟨u, w + 1 - 1, false, false⟩ := rfl
    have hw : w + 1 - 1 = w := by omega
    have hclose : scanList ⟨u, w + 1, false, false⟩ [']'] = ⟨u, w, false, false⟩ ∧
        allPrefGe b k ⟨u, w + 1, false, false⟩ [']'] := by
      constructor
      · show stepChar ⟨u, w + 1, false, false⟩ ']' = ⟨u, w, false, false⟩
        rw [hcl, hw]
      · exact ⟨⟨by rw [hcl]; exact hb, by rw [hcl]; show k ≤ w + 1 - 1; omega⟩, trivial⟩
    constructor
    · show scanList (stepChar ⟨u, w, false, false⟩ '[')
        (dumpElems (.cons x tl) ++ [']']) = ⟨u, w, false, false⟩
      show scanList ⟨u, w + 1, false, false⟩
        (dumpElems (.cons x tl) ++ [']']) = ⟨u, w, false, false⟩
      rw [scanList_append, hE.1, hclose.1]
    · refine ⟨⟨?_, ?_⟩, ?_⟩
      · show b ≤ u; exact hb
      · show k ≤ w + 1; omega
      show allPrefGe b k ⟨u, w + 1, false, false⟩ (dumpElems (.cons x tl) ++ [']'])
      exact allPrefGe_append hE.2 (by rw [hE.1]; exact hclose.2)
  | .obj .nil, u, w, b, k, hb, hk => by
    constructor
    · show (⟨u + 1 - 1, w, false, false⟩ : ScanSt) = ⟨u, w, false, false⟩
      have hu : u + 1 - 1 = u := by omega
      rw [hu]
    · refine ⟨⟨?_, ?_⟩, ⟨?_, ?_⟩, trivial⟩
      · show b ≤ u + 1; omega
      · show k ≤ w; exact hk
      · show b ≤ u + 1 - 1; omega
      · show k ≤ w; exact hk
  | .obj (.cons s v tl), u, w, b, k, hb, hk => by
    have hF := scanFields (.cons s v tl) (u + 1) w b k (by omega) hk
    have hcl : stepChar ⟨u + 1, w, false, false⟩ '}'
        = ⟨u + 1 - 1, w, false, false⟩ := rfl
    have hu : u + 1 - 1 = u := by omega
    have hclose : scanList ⟨u + 1, w, false, false⟩ ['}'] = ⟨u, w, false, false⟩ ∧
        allPrefGe b k ⟨u + 1, w, false, false⟩ ['}'] := by
      constructor
      · show stepChar ⟨u + 1, w, false, false⟩ '}' = ⟨u, w, false, false⟩
        rw [hcl, hu]
      · exact ⟨⟨by rw [hcl]; show b ≤ u + 1 - 1; omega, by rw [hcl]; exact hk⟩, trivial⟩
    constructor
    · show scanList (stepChar ⟨u, w, false, false⟩ '{')
        (dumpFields (.cons s v tl) ++ ['}']) = ⟨u, w, false, false⟩
      show scanList ⟨u + 1, w, false, false⟩
        (dumpFields (.cons s v tl) ++ ['}']) = ⟨u, w, false, false⟩
      rw [scanList_append, hF.1, hclose.1]
    · refine ⟨⟨?_, ?_⟩, ?_⟩
      · show b ≤ u + 1; omega
      · show k ≤ w; exact hk
      show allPrefGe b k ⟨u + 1, w, false, false⟩ (dumpFields (.cons s v tl) ++ ['}'])
      exact allPrefGe_append hF.2 (by rw [hF.1]; exact hclose.2)
  termination_by v => sizeOf v

theorem scanElems : ∀ (xs : JArr) (u w b k : Int), b ≤ u → k ≤ w →
    scanList ⟨u, w, false, false⟩ (dumpElems xs) = ⟨u, w, false, false⟩ ∧
      allPrefGe b k ⟨u, w, false, false⟩ (dumpElems xs)
  | .nil, u, w, b, k, hb, hk => ⟨rfl, trivial⟩
  | .cons x .nil, u, w, b, k, hb, hk => scanJ x u w b k hb hk
  | .cons x (.cons y tl), u, w, b, k, hb, hk => by
    have hx := scanJ x u w b k hb hk
    have hrest := scanElems (.cons y tl) u w b k hb hk
    have hcomma : stepChar ⟨u, w, false, false⟩ ','
        = ⟨u, w, false, false⟩ := stepChar_inert rfl rfl
          (by decide) (by decide) (by decide) (by decide) (by decide)
    have hspace : stepChar ⟨u, w, false, false⟩ ' '
        = ⟨u, w, false, false⟩ := stepChar_inert rfl rfl
          (by decide) (by decide) (by decide) (by decide) (by decide)
    show scanList ⟨u, w, false, false⟩
        (dumpJ x ++ ',' :: ' ' :: dumpElems (.cons y tl)) = ⟨u, w, false, false⟩ ∧
      allPrefGe b k ⟨u, w, false, false⟩
        (dumpJ x ++ ',' :: ' ' :: dumpElems (.cons y tl))
    exact seg_append hx (seg_cons b k _ ',' _ hcomma hb hk
      (seg_cons b k _ ' ' _ hspace hb hk hrest))
  termination_by xs => sizeOf xs

theorem scanFields : ∀ (fs : JObj) (u w b k : Int), b ≤ u → k ≤ w →
    scanList ⟨u, w, false, false⟩ (dumpFields fs) = ⟨u, w, false, false⟩ ∧
      allPrefGe b k ⟨u, w, false, false⟩ (dumpFields fs)
  | .nil, u, w, b, k, hb, hk => ⟨rfl, trivial⟩
  | .cons s v .nil, u, w, b, k, hb, hk => by
    have hs := dq_seg u w b k hb hk s
    have hv := scanJ v u w b k hb hk
    have hcolon : stepChar ⟨u, w, false, false⟩ ':'
        = ⟨u, w, false, false⟩ := stepChar_inert rfl rfl
          (by decide) (by decide) (by decide) (by decide) (by decide)
    have hspace : stepChar ⟨u, w, false, false⟩ ' '
        = ⟨u, w, false, false⟩ := stepChar_inert rfl rfl
          (by decide) (by decide) (by decide) (by decide) (by decide)
    show scanList ⟨u, w, false, false⟩
        (dq s ++ ':' :: ' ' :: dumpJ v) = ⟨u, w, false, false⟩ ∧
      allPrefGe b k ⟨u, w, false, false⟩ (dq s ++ ':' :: ' ' :: dumpJ v)
    exact seg_append hs (seg_cons b k _ ':' _ hcolon hb hk
      (seg_cons b k _ ' ' _ hspace hb hk hv))
  | .cons s v (.cons s2 v2 tl), u, w, b, k, hb, hk => by
    have hs := dq_seg u w b k hb hk s
    have hv := scanJ v u w b k hb hk
    have hrest := scanFields (.cons s2 v2 tl) u w b k hb hk
    have hcolon : stepChar ⟨u, w, false, false⟩ ':'
        = ⟨u, w, false, false⟩ := stepChar_inert rfl rfl
          (by decide) (by decide) (by decide) (by decide) (by decide)
    have hcomma : stepChar ⟨u, w, false, false⟩ ','
        = ⟨u, w, false, false⟩ := stepChar_inert rfl rfl
          (by decide) (by decide) (by decide) (by decide) (by decide)
    have hspace : stepChar ⟨u, w, false, false⟩ ' '
        = ⟨u, w, false, false⟩ := stepChar_inert rfl rfl
          (by decide) (by decide) (by decide) (by decide) (by decide)
    show scanList ⟨u, w, false, false⟩
        (dq s ++ ':' :: ' ' :: dumpJ v ++ ',' :: ' ' :: dumpFields (.cons s2 v2 tl))
          = ⟨u, w, false, false⟩ ∧
      allPrefGe b k ⟨u, w, false, false⟩
        (dq s ++ ':' :: ' ' :: dumpJ v ++ ',' :: ' ' :: dumpFields (.cons s2 v2 tl))
    exact seg_append
      (seg_append hs (seg_cons b k _ ':' _ hcolon hb hk
        (seg_cons b k _ ' ' _ hspace hb hk hv)))
      (seg_cons b k _ ',' _ hcomma hb hk
        (seg_cons b k _ ' ' _ hspace hb hk hrest))
  termination_by fs => sizeOf fs
end

theorem findEndAux_skip (x : Char) (b k : Int) (hbk : 1 ≤ b ∨ 1 ≤ k) :
    ∀ (a : List Char) (st : ScanSt) (i : Nat) (r : List Char),
      allPrefGe b k st a →
      findEndAux x st i (a ++ r) = findEndAux x (scanList st a) (i + a.length) r
  | [], st, i, r, _ => by
    show findEndAux x st i r = findEndAux x st (i + 0) r
    rw [Nat.add_zero]
  | c :: a, st, i, r, h => by
    obtain ⟨⟨h1, h2⟩, h3⟩ := h
    have hcond : (checked st c &&
        ((x = '{' && (stepChar st c).bb = 0 && (stepChar st c).kb = 0)
          || (x = '[' && (stepChar st c).kb = 0 && (stepChar st c).bb = 0))) = false := by
      rcases hbk with hb | hk
      · have hne : ¬((stepChar st c).bb = 0) := by omega
        simp [hne]
      · have hne : ¬((stepChar st c).kb = 0) := by omega
        simp [hne]
    show (if (checked st c &&
        ((x = '{' && (stepChar st c).bb = 0 && (stepChar st c).kb = 0)
          || (x = '[' && (stepChar st c).kb = 0 && (stepChar st c).bb = 0))) = true
        then some i
        else findEndAux x (stepChar st c) (i + 1) (a ++ r))
      = findEndAux x (scanList st (c :: a)) (i + (c :: a).length) r
    rw [hcond, if_neg (by decide)]
    rw [findEndAux_skip x b k hbk a (stepChar st c) (i + 1) r h3]
    have hlen : i + 1 + a.length = i + (c :: a).length := by
      simp [List.length_cons]
      omega
    rw [hlen]
    rfl

theorem verifyAux_of_ge : ∀ (cs : List Char) (st : ScanSt),
    allPrefGe 0 0 st cs →
    verifyAux st cs = ((scanList st cs).bb = 0 && (scanList st cs).kb = 0
      && !(scanList st cs).inStr)
  | [], _, _ => rfl
  | c :: rest, st, h => by
    obtain ⟨⟨h1, h2⟩, h3⟩ := h
    have hcond : (checked st c &&
        ((stepChar st c).bb < 0 || (stepChar st c).kb < 0)) = false := by
      have hb : ¬((stepChar st c).bb < 0) := by omega
      have hk : ¬((stepChar st c).kb < 0) := by omega
      simp [hb, hk]
    show (if (checked st c && ((stepChar st c).bb < 0 || (stepChar st c).kb < 0)) = true
        then false else verifyAux (stepChar st c) rest)
      = ((scanList st (c :: rest)).bb = 0 && (scanList st (c :: rest)).kb = 0
        && !(scanList st (c :: rest)).inStr)
    rw [hcond, if_neg (by decide)]
    exact verifyAux_of_ge rest (stepChar st c) h3

theorem String_mk_cons_ne {c : Char} {l : List Char} : String.mk (c :: l) ≠ "" := by
  intro h
  exact absurd (congrArg String.data h : c :: l = []) (by simp)

theorem verify_jdumps (v : J) : verify_json_integrity (jdumps v) = true := by
  obtain ⟨c, r, hd, -, -, -⟩ := dumpJ_head v
  have hne : ¬(jdumps v = "") := by
    show ¬(String.mk (dumpJ v) = "")
    rw [hd]
    exact String_mk_cons_ne
  unfold verify_json_integrity
  rw [if_neg hne]
  have hs := scanJ v 0 0 0 0 (le_refl 0) (le_refl 0)
  have hbr := verifyAux_of_ge (dumpJ v) ⟨0, 0, false, false⟩ hs.2
  rw [hs.1] at hbr
  show verifyAux ⟨0, 0, false, false⟩ (dumpJ v) = true
  rw [hbr]
  decide

theorem trimChars_fixed {c e : Char} {B : List Char} (hc : isPyWs c = false)
    (he : isPyWs e = false) : trimChars (c :: B ++ [e]) = c :: B ++ [e] := by
  unfold trimChars
  rw [List.cons_append, List.dropWhile_cons, if_neg (by simp [hc])]
  rw [List.reverse_cons]
  have hrev : (B ++ [e]).reverse = e :: B.reverse := by simp
  rw [hrev, List.cons_append, List.dropWhile_cons, if_neg (by simp [he])]
  simp

theorem objHasKey_cleanO (s : String) : ∀ fs : JObj,
    objHasKey s (cleanO fs) = objHasKey s fs
  | .nil => rfl
  | .cons c v tl => by
    show (decide (c = s) || objHasKey s (cleanO tl))
      = (decide (c = s) || objHasKey s tl)
    rw [objHasKey_cleanO s tl]

theorem hasRequired_cleanO (fs : JObj) :
    hasRequired (cleanO fs) = hasRequired fs := by
  unfold hasRequired
  rw [objHasKey_cleanO, objHasKey_cleanO]

theorem jdumps_ne_empty (v : J) : jdumps v ≠ "" := by
  obtain ⟨c, r, hd, -, -, -⟩ := dumpJ_head v
  show String.mk (dumpJ v) ≠ ""
  rw [hd]
  exact String_mk_cons_ne

theorem sanitize_jdumps (v : J) :
    sanitize_json_string_values (jdumps v) = jdumps (cleanJ v) := by
  unfold sanitize_json_string_values
  rw [jparse_jdumps]

theorem candidateOf_obj (t : String) (inner : List Char)
    (hfix : cleanedOf t = '{' :: inner ++ ['}'])
    (hseg : scanList ⟨1, 0, false, false⟩ inner = ⟨1, 0, false, false⟩ ∧
      allPrefGe 1 0 ⟨1, 0, false, false⟩ inner) :
    candidateOf t = some (String.mk ('{' :: inner ++ ['}'])) := by
  have hstart : findStart ('{' :: inner ++ ['}'])
      = some ('{', '{' :: inner ++ ['}']) := by
    show (if '{' = '{' ∨ '{' = '[' then some ('{', '{' :: (inner ++ ['}']))
      else findStart (inner ++ ['}'])) = some ('{', '{' :: inner ++ ['}'])
    rw [if_pos (Or.inl rfl)]
    rfl
  have hend : findEnd '{' ('{' :: inner ++ ['}']) = some (1 + inner.length) := by
    unfold findEnd
    have h1 : findEndAux '{' scanInit 0 ('{' :: inner ++ ['}'])
        = findEndAux '{' ⟨1, 0, false, false⟩ 1 (inner ++ ['}']) := rfl
    rw [h1, findEndAux_skip '{' 1 0 (Or.inl (le_refl 1)) inner
      ⟨1, 0, false, false⟩ 1 ['}'] hseg.2, hseg.1]
    rfl
  unfold candidateOf
  rw [hfix, hstart]
  show (match findEnd '{' ('{' :: inner ++ ['}']) with
    | none => none
    | some r =>
      if r = 0 then none
      else some (String.mk (trimChars (('{' :: inner ++ ['}']).take (r + 1)))))
    = some (String.mk ('{' :: inner ++ ['}']))
  rw [hend]
  show (if 1 + inner.length = 0 then none
    else some (String.mk (trimChars
      (('{' :: inner ++ ['}']).take (1 + inner.length + 1)))))
    = some (String.mk ('{' :: inner ++ ['}']))
  rw [if_neg (by omega)]
  have htake : ('{' :: inner ++ ['}']).take (1 + inner.length + 1)
      = '{' :: inner ++ ['}'] := by
    apply List.take_of_length_le
    simp
    omega
  rw [htake, trimChars_fixed (by decide) (by decide)]

theorem candidateOf_arr (t : String) (inner : List Char)
    (hfix : cleanedOf t = '[' :: inner ++ [']'])
    (hseg : scanList ⟨0, 1, false, false⟩ inner = ⟨0, 1, false, false⟩ ∧
      allPrefGe 0 1 ⟨0, 1, false, false⟩ inner) :
    candidateOf t = some (String.mk ('[' :: inner ++ [']'])) := by
  have hstart : findStart ('[' :: inner ++ [']'])
      = some ('[', '[' :: inner ++ [']']) := by
    show (if '[' = '{' ∨ '[' = '[' then some ('[', '[' :: (inner ++ [']']))
      else findStart (inner ++ [']'])) = some ('[', '[' :: inner ++ [']'])
    rw [if_pos (Or.inr rfl)]
    rfl
  have hend : findEnd '[' ('[' :: inner ++ [']']) = some (1 + inner.length) := by
    unfold findEnd
    have h1 : findEndAux '[' scanInit 0 ('[' :: inner ++ [']'])
        = findEndAux '[' ⟨0, 1, false, false⟩ 1 (inner ++ [']']) := rfl
    rw [h1, findEndAux_skip '[' 0 1 (Or.inr (le_refl 1)) inner
      ⟨0, 1, false, false⟩ 1 [']'] hseg.2, hseg.1]
    rfl
  unfold candidateOf
  rw [hfix, hstart]
  show (match findEnd '[' ('[' :: inner ++ [']']) with
    | none => none
    | some r =>
      if r = 0 then none
      else some (String.mk (trimChars (('[' :: inner ++ [']']).take (r + 1)))))
    = some (String.mk ('[' :: inner ++ [']']))
  rw [hend]
  show (if 1 + inner.length = 0 then none
    else some (String.mk (trimChars
      (('[' :: inner ++ [']']).take (1 + inner.length + 1)))))
    = some (String.mk ('[' :: inner ++ [']']))
  rw [if_neg (by omega)]
  have htake : ('[' :: inner ++ [']']).take (1 + inner.length + 1)
      = '[' :: inner ++ [']'] := by
    apply List.take_of_length_le
    simp
    omega
  rw [htake, trimChars_fixed (by decide) (by decide)]

/-- C3 (amended): for every JSON document whose serialized form is left
unchanged by the extractor's noise-removal phase (boilerplate, fence and
label removal and the character allow-list filter), whose representative
record carries `domain` or `patterns`, and whose artifact-cleaned
serialization is free of the placeholder markers, `extract_clean_json`
applied to `json.dumps` of the document returns exactly `json.dumps` of the
artifact-cleaned document, which decodes to `clean_recursive` of the
document.  (The unamended round-trip claim fails because the allow-list
filter can alter string values; see `extract_roundtrip_cex`.) -/
theorem extract_roundtrip_of_cleanup_fixpoint (D : J)
    (hfix : cleanedOf (jdumps D) = (jdumps D).data)
    (hrep : repOkStrong D)
    (hnp : noPlaceholder (jdumps (cleanJ D))) :
    extract_clean_json (jdumps D) = jdumps (cleanJ D) ∧
      jparse (extract_clean_json (jdumps D)) = some (cleanJ D) := by
  suffices hmain : extract_clean_json (jdumps D) = jdumps (cleanJ D) by
    refine ⟨hmain, ?_⟩
    rw [hmain]
    exact jparse_jdumps (cleanJ D)
  have hshape : (∃ fs, D = J.obj fs ∧ hasRequired fs = true) ∨
      (∃ fs tl, D = J.arr (.cons (.obj fs) tl) ∧ hasRequired fs = true) := by
    match D, hrep with
    | .obj fs, hrep => exact Or.inl ⟨fs, rfl, hrep⟩
    | .arr (.cons (.obj fs) tl), hrep => exact Or.inr ⟨fs, tl, rfl, hrep⟩
    | .null, hrep => exact (hrep : False).elim
    | .bool x, hrep => exact (hrep : False).elim
    | .num n, hrep => exact (hrep : False).elim
    | .str s, hrep => exact (hrep : False).elim
    | .arr .nil, hrep => exact (hrep : False).elim
    | .arr (.cons .null tl), hrep => exact (hrep : False).elim
    | .arr (.cons (.bool x) tl), hrep => exact (hrep : False).elim
    | .arr (.cons (.num n) tl), hrep => exact (hrep : False).elim
    | .arr (.cons (.str s) tl), hrep => exact (hrep : False).elim
    | .arr (.cons (.arr ys) tl), hrep => exact (hrep : False).elim
  rcases hshape with ⟨fs, rfl, hkey⟩ | ⟨fs, tl, rfl, hkey⟩
  · have hdump : dumpJ (J.obj fs) = '{' :: dumpFields fs ++ ['}'] := by
      match fs with
      | .nil => rfl
      | .cons s v tl => rfl
    have hfix2 : cleanedOf (jdumps (J.obj fs)) = '{' :: dumpFields fs ++ ['}'] := by
      rw [hfix]
      exact hdump
    have hcand : candidateOf (jdumps (J.obj fs)) = some (jdumps (J.obj fs)) := by
      rw [candidateOf_obj (jdumps (J.obj fs)) (dumpFields fs) hfix2
        (scanFields fs 1 0 1 0 (le_refl 1) (le_refl 0)), ← hdump]
      rfl
    have hval : is_valid_json (jdumps (cleanJ (J.obj fs))) = true := by
      unfold is_valid_json
      rw [if_neg (jdumps_ne_empty _), jparse_jdumps]
      show (if (containsSub "example".data
            (lowerChars (jdumps (cleanJ (J.obj fs))).data)
          || containsSub "domain.com".data
            (lowerChars (jdumps (cleanJ (J.obj fs))).data)) = true
        then false
        else hasRequired (cleanO fs)) = true
      rw [hnp.1, hnp.2, if_neg (by decide), hasRequired_cleanO]
      exact hkey
    unfold extract_clean_json
    rw [if_neg (jdumps_ne_empty _), hcand]
    show (if verify_json_integrity (jdumps (J.obj fs)) = true then
        (if is_valid_json (sanitize_json_string_values (jdumps (J.obj fs))) = true
          then sanitize_json_string_values (jdumps (J.obj fs)) else "")
      else "") = jdumps (cleanJ (J.obj fs))
    rw [if_pos (verify_jdumps _), sanitize_jdumps, if_pos hval]
  · have hdump : dumpJ (J.arr (.cons (.obj fs) tl))
        = '[' :: dumpElems (.cons (.obj fs) tl) ++ [']'] := rfl
    have hfix2 : cleanedOf (jdumps (J.arr (.cons (.obj fs) tl)))
        = '[' :: dumpElems (.cons (.obj fs) tl) ++ [']'] := by
      rw [hfix]
      exact hdump
    have hcand : candidateOf (jdumps (J.arr (.cons (.obj fs) tl)))
        = some (jdumps (J.arr (.cons (.obj fs) tl))) := by
      rw [candidateOf_arr (jdumps (J.arr (.cons (.obj fs) tl)))
        (dumpElems (.cons (.obj fs) tl)) hfix2
        (scanElems (.cons (.obj fs) tl) 0 1 0 1 (le_refl 0) (le_refl 1)), ← hdump]
      rfl
    have hval : is_valid_json (jdumps (cleanJ (J.arr (.cons (.obj fs) tl)))) = true := by
      unfold is_valid_json
      rw [if_neg (jdumps_ne_empty _), jparse_jdumps]
      show (if (containsSub "example".data
            (lowerChars (jdumps (cleanJ (J.arr (.cons (.obj fs) tl)))).data)
          || containsSub "domain.com".data
            (lowerChars (jdumps (cleanJ (J.arr (.cons (.obj fs) tl)))).data)) = true
        then false
        else hasRequired (cleanO fs)) = true
      rw [hnp.1, hnp.2, if_neg (by decide), hasRequired_cleanO]
      exact hkey
    unfold extract_clean_json
    rw [if_neg (jdumps_ne_empty _), hcand]
    show (if verify_json_integrity (jdumps (J.arr (.cons (.obj fs) tl))) = true then
        (if is_valid_json (sanitize_json_string_values
            (jdumps (J.arr (.cons (.obj fs) tl)))) = true
          then sanitize_json_string_values (jdumps (J.arr (.cons (.obj fs) tl))) else "")
      else "") = jdumps (cleanJ (J.arr (.cons (.obj fs) tl)))
    rw [if_pos (verify_jdumps _), sanitize_jdumps, if_pos hval]

/-- C3 counterexample: `slashDoc` holds key
`domain`, its serialization carries no placeholder marker, and value
cleaning leaves it unchanged, yet the extractor's output does not decode to
the (cleaned) document — the allow-list filter deletes the `/` inside the
string value, so the recovered document reads `ab.com` instead of
`a/b.com`. -/
theorem extract_roundtrip_cex :
    repOkStrong slashDoc ∧ noPlaceholder (jdumps slashDoc) ∧
      cleanJ slashDoc = slashDoc ∧
      jparse (extract_clean_json (jdumps slashDoc)) ≠ some (cleanJ slashDoc) :=
  ⟨by show hasRequired (JObj.cons "domain" (J.str "a/b.com") JObj.nil) = true; decide,
   ⟨by decide, by decide⟩, by decide, by decide⟩

theorem extract_roundtrip_of_cleanup_fixpoint_witness :
    (cleanedOf (jdumps labelDoc) = (jdumps labelDoc).data ∧
      repOkStrong labelDoc ∧ noPlaceholder (jdumps (cleanJ labelDoc))) ∧
    (extract_clean_json (jdumps labelDoc) = jdumps (cleanJ labelDoc) ∧
      jparse (extract_clean_json (jdumps labelDoc)) = some (cleanJ labelDoc)) :=
  ⟨⟨by decide,
    by show hasRequired (JObj.cons "domain" (J.str "jsonab.comjson") JObj.nil) = true
       decide,
    ⟨by decide, by decide⟩⟩,
   extract_roundtrip_of_cleanup_fixpoint labelDoc (by decide)
     (by show hasRequired (JObj.cons "domain" (J.str "jsonab.comjson") JObj.nil) = true
         decide)
     ⟨by decide, by decide⟩⟩
